import Mathlib

/-!
Verification development for the `on_load` forbidden-globals analyzer of the
factorio-quality-control validation suite (`tests/test_on_load_globals.py`,
with shared helpers from `tests/conftest.py`).

The Python source is shallowly embedded: file contents are lists of
characters, each regular-expression use of the source is hand-rolled as a
specialized matcher with the backtracking behaviour of the concrete pattern,
dictionaries are association lists with last-write-wins updates, and the one
place where the Python code can raise an uncaught exception (an out-of-range
line index) is modelled with `Except`.
-/

namespace OnLoad

/-- Word characters of the analyzer regexes (`\w` over the ASCII inputs the
analyzer processes): letters, digits and underscore. -/
def isWordChar (c : Char) : Bool := c.isAlpha || c.isDigit || c = '_'

/-- Whitespace characters of the analyzer regexes (`\s`). -/
def isSpaceChar (c : Char) : Bool :=
  c = ' ' || c = '\t' || c = '\n' || c = '\r' || c = Char.ofNat 11 || c = Char.ofNat 12

/-- Double-quote character. -/
def dqChar : Char := Char.ofNat 34

/-- Single-quote character. -/
def sqChar : Char := Char.ofNat 39

/-- Backslash character. -/
def bsChar : Char := Char.ofNat 92

/-- Test whether `p` is an initial segment of `s`. -/
def startsWith : List Char → List Char → Bool
  | [], _ => true
  | _ :: _, [] => false
  | p :: ps, c :: cs => p == c && startsWith ps cs

/-- First index at which the pattern `p` occurs in `s` (Python `str.find`),
searching from relative index 0. -/
def findSubAux (p : List Char) : List Char → Nat → Option Nat
  | s, i =>
    if startsWith p s then some i
    else
      match s with
      | [] => none
      | _ :: t => findSubAux p t (i + 1)

/-- First index at which pattern `p` occurs in `s`, if any. -/
def findSub (p s : List Char) : Option Nat := findSubAux p s 0

/-- Test whether pattern `p` occurs somewhere in `s` (Python `in`). -/
def containsSub (p s : List Char) : Bool := (findSub p s).isSome

/-- Count non-overlapping occurrences of pattern `p` in `s`, scanning left to
right and resuming after each match (Python `re.findall` on a literal
pattern). The fuel argument bounds the recursion; `countSub` supplies
`s.length`, which always suffices because every step consumes at least one
character. -/
def countSubAux (p : List Char) : Nat → List Char → Nat
  | 0, _ => 0
  | _ + 1, [] => 0
  | fuel + 1, s@(_ :: t) =>
    if startsWith p s then 1 + countSubAux p fuel (s.drop p.length)
    else countSubAux p fuel t

/-- Count non-overlapping occurrences of `p` in `s`. -/
def countSub (p s : List Char) : Nat := countSubAux p s.length s

/-- Split a character list at newline characters (Python `str.split`
applied with a newline separator: an empty input yields one empty line, and a
trailing newline yields a trailing empty line). -/
def splitLines : List Char → List (List Char)
  | [] => [[]]
  | c :: t =>
    match splitLines t with
    | [] => [[]]
    | l :: ls => if c = '\n' then [] :: l :: ls else (c :: l) :: ls

/-- Quote-state after scanning the first `n` characters of `line`, as the pair
`(in_single, in_double)`, mirroring the index-based loop of
`LuaParser._is_in_string`: a quote toggles its own state only when the other
quote state is off and the previous character (if any) is not a backslash. -/
def strStateAt (line : List Char) (n : Nat) : Bool × Bool :=
  (List.range n).foldl
    (fun st i =>
      let c := line.getD i ' '
      let prevBS := decide (i ≠ 0) && (line.getD (i - 1) ' ' == bsChar)
      if c == dqChar && !st.1 && !prevBS then (st.1, !st.2)
      else if c == sqChar && !st.2 && !prevBS then (!st.1, st.2)
      else st)
    (false, false)

/-- Embedding of `LuaParser._is_in_string`: whether position `pos` of `line`
is inside a single- or double-quoted literal. -/
def isInString (line : List Char) (pos : Nat) : Bool :=
  let st := strStateAt line (min pos line.length)
  st.1 || st.2

/-- A Lua source file in the working state of the analyzer: the raw content and
its newline-separated lines. -/
structure LuaParser where
  content : List Char
deriving DecidableEq

/-- Line list of a parser, as computed in `LuaParser.__init__`. -/
def LuaParser.lines (p : LuaParser) : List (List Char) := splitLines p.content

/-- Embedding of `LuaParser._line_pos_to_absolute`: absolute offset of
`(lineNum, pos)` in the joined content. -/
def linePosAbs (lines : List (List Char)) (lineNum pos : Nat) : Nat :=
  (lines.take lineNum).foldl (fun a l => a + l.length + 1) 0 + pos

/-- Multi-line comment opener `--[[`. -/
def mlStart : List Char := "--[[".data

/-- Multi-line comment closer `]]`. -/
def mlEnd : List Char := "]]".data

/-- Embedding of `LuaParser._is_in_comment`: the position is in a comment if
a single-line marker `--` occurs at or before it outside a string, or if the
content before the position has more `--[[` openers than `]]` closers. -/
def LuaParser.isInComment (p : LuaParser) (lineNum pos : Nat) : Bool :=
  let line := p.lines.getD lineNum []
  let single :=
    match findSub ('-' :: '-' :: []) line with
    | some cs => decide (cs ≤ pos) && !isInString line cs
    | none => false
  single ||
    (decide (countSub mlEnd (p.content.take (linePosAbs p.lines lineNum pos)) <
      countSub mlStart (p.content.take (linePosAbs p.lines lineNum pos))))

/-- Keyword `function` as a character list. -/
def kwFunction : List Char := "function".data

/-- Keyword `end` as a character list. -/
def kwEnd : List Char := "end".data

/-- Keyword `local` as a character list. -/
def kwLocal : List Char := "local".data

/-- Drop the literal pattern `p` from the head of `s`, or fail. -/
def dropLit (p s : List Char) : Option (List Char) :=
  if startsWith p s then some (s.drop p.length) else none

/-- Matcher for the call regex `(\w+(?:\.\w+)?)\s*\(` anchored at the head of
`s`. The optional dotted segment is greedy and is abandoned when its
continuation fails, matching the backtracking order of the Python engine.
Returns the captured name and the remaining suffix after the opening
parenthesis. -/
def matchCallAt (s : List Char) : Option (String × List Char) :=
  let w := s.takeWhile isWordChar
  if w.isEmpty then none
  else
    let r1 := s.drop w.length
    let dotted : Option (String × List Char) :=
      match r1 with
      | '.' :: r2 =>
        let w2 := r2.takeWhile isWordChar
        if w2.isEmpty then none
        else
          match (r2.drop w2.length).dropWhile isSpaceChar with
          | '(' :: r4 => some (String.mk (w ++ '.' :: w2), r4)
          | _ => none
      | _ => none
    match dotted with
    | some res => some res
    | none =>
      match r1.dropWhile isSpaceChar with
      | '(' :: r4 => some (String.mk w, r4)
      | _ => none

/-- Left-to-right non-overlapping scan of `s` for the call regex, collecting
captured names (Python `re.finditer`); the scan resumes after each match and
otherwise advances one character. -/
def callFinditerAux : Nat → List Char → List String
  | 0, _ => []
  | _ + 1, [] => []
  | fuel + 1, s@(_ :: t) =>
    match matchCallAt s with
    | some (name, r) => name :: callFinditerAux fuel r
    | none => callFinditerAux fuel t

/-- All call-regex captures in `s`, in scan order. -/
def callFinditer (s : List Char) : List String := callFinditerAux s.length s

/-- Matcher for `(\w+(?:\.\w+)?)\s*=\s*function\s*\(` anchored at the head of
`s` (the assignment alternative of the definition regex, with the trailing
`\s*\(` of the enclosing pattern folded in). -/
def matchAssignTail (name : List Char) (r : List Char) : Option (String × List Char) :=
  match r.dropWhile isSpaceChar with
  | '=' :: r2 =>
    match dropLit kwFunction (r2.dropWhile isSpaceChar) with
    | some r4 =>
      match r4.dropWhile isSpaceChar with
      | '(' :: r6 => some (String.mk name, r6)
      | _ => none
    | none => none
  | _ => none

/-- Matcher for the assignment alternative, trying the greedy dotted name
before falling back to the plain name. -/
def matchAssignFn (s : List Char) : Option (String × List Char) :=
  let w := s.takeWhile isWordChar
  if w.isEmpty then none
  else
    let r1 := s.drop w.length
    let dotted : Option (String × List Char) :=
      match r1 with
      | '.' :: r2 =>
        let w2 := r2.takeWhile isWordChar
        if w2.isEmpty then none
        else matchAssignTail (w ++ '.' :: w2) (r2.drop w2.length)
      | _ => none
    match dotted with
    | some res => some res
    | none => matchAssignTail w r1

/-- Matcher core for the definition regex
`(?:function\s+(\w+(?:\.\w+)?)|(\w+(?:\.\w+)?)\s*=\s*function)\s*\(`:
the `function NAME(` alternative is tried before the assignment
alternative, as in the Python pattern. -/
def matchDefCore (s : List Char) : Option (String × List Char) :=
  let alt1 : Option (String × List Char) :=
    match dropLit kwFunction s with
    | some r =>
      let sp := r.takeWhile isSpaceChar
      if sp.isEmpty then none else matchCallAt (r.drop sp.length)
    | none => none
  match alt1 with
  | some res => some res
  | none => matchAssignFn s

/-- Matcher for the full definition regex with its optional `(?:local\s+)?`
prefix; the prefixed form is tried first, as the Python engine does. -/
def matchDefAt (s : List Char) : Option (String × List Char) :=
  let withLocal : Option (String × List Char) :=
    match dropLit kwLocal s with
    | some r =>
      let sp := r.takeWhile isSpaceChar
      if sp.isEmpty then none else matchDefCore (r.drop sp.length)
    | none => none
  match withLocal with
  | some res => some res
  | none => matchDefCore s

/-- Left-to-right non-overlapping scan of a line for the definition regex,
collecting `(matchStart, capturedName)` pairs. -/
def defFinditerAux : Nat → List Char → Nat → List (Nat × String)
  | 0, _, _ => []
  | _ + 1, [], _ => []
  | fuel + 1, s@(_ :: t), pos =>
    match matchDefAt s with
    | some (name, r) => (pos, name) :: defFinditerAux fuel r (pos + (s.length - r.length))
    | none => defFinditerAux fuel t (pos + 1)

/-- All definition-regex matches in a line, as `(start, name)` pairs. -/
def defFinditer (line : List Char) : List (Nat × String) := defFinditerAux line.length line 0

/-- Boolean test for the suffix `\s*=\s*function\s*\(` after a literal
name. -/
def matchAssignTailB (r : List Char) : Bool :=
  match r.dropWhile isSpaceChar with
  | '=' :: r2 =>
    match dropLit kwFunction (r2.dropWhile isSpaceChar) with
    | some r4 =>
      (match r4.dropWhile isSpaceChar with
       | '(' :: _ => true
       | _ => false)
    | none => false
  | _ => false

/-- Matcher for the name-specific pattern
`(?:local\s+)?(?:function\s+NAME|NAME\s*=\s*function)\s*\(` (the body-locator
pattern of `find_function_calls` and `check_forbidden_globals`, with `NAME` a
literal) anchored at the head of `s`. Only a Boolean result is needed. -/
def matchFuncNamedAt (name : List Char) (s : List Char) : Bool :=
  let core := fun (u : List Char) =>
    (match dropLit kwFunction u with
     | some r =>
       let sp := r.takeWhile isSpaceChar
       if sp.isEmpty then false
       else
         match dropLit name (r.drop sp.length) with
         | some r2 =>
           (match r2.dropWhile isSpaceChar with
            | '(' :: _ => true
            | _ => false)
         | none => false
     | none => false) ||
    (match dropLit name u with
     | some r => matchAssignTailB r
     | none => false)
  (match dropLit kwLocal s with
   | some r =>
     let sp := r.takeWhile isSpaceChar
     if sp.isEmpty then false else core (r.drop sp.length)
   | none => false) ||
  core s

/-- Search (Python `re.search`) for the name-specific pattern anywhere in a
line. -/
def funcPatternSearch (name : List Char) : List Char → Bool
  | [] => matchFuncNamedAt name []
  | s@(_ :: t) => matchFuncNamedAt name s || funcPatternSearch name t

/-- Count positions of `line` where the whole word `w` occurs: the previous
character (tracked in `prev`) is not a word character and the character after
the occurrence is absent or not a word character. For a word pattern these
occurrences cannot overlap, so this equals the `re.findall` count of
`\bw\b`. -/
def countWordFrom (w : List Char) : Option Char → List Char → Nat
  | _, [] => 0
  | prev, s@(c :: t) =>
    let hit := (match prev with | none => true | some pc => !isWordChar pc) &&
      startsWith w s &&
      (match s.drop w.length with | [] => true | d :: _ => !isWordChar d)
    (if hit then 1 else 0) + countWordFrom w (some c) t

/-- Count of whole-word occurrences of `w` in `line`. -/
def countWord (w line : List Char) : Nat := countWordFrom w none line

/-- Start positions of matches of `\bNAME\s*\.` in `line`: the previous
character is not a word character, `NAME` occurs literally, and the next
non-space character is a dot. Such matches cannot overlap, so this equals
the `re.finditer` enumeration. -/
def forbiddenPositionsFrom (g : List Char) : Option Char → Nat → List Char → List Nat
  | _, _, [] => []
  | prev, i, s@(c :: t) =>
    let hit := (match prev with | none => true | some pc => !isWordChar pc) &&
      startsWith g s &&
      (match (s.drop g.length).dropWhile isSpaceChar with
       | '.' :: _ => true
       | _ => false)
    (if hit then [i] else []) ++ forbiddenPositionsFrom g (some c) (i + 1) t

/-- Match start positions of `\bNAME\s*\.` in `line`. -/
def forbiddenPositions (g line : List Char) : List Nat := forbiddenPositionsFrom g none 0 line

/-- Membership test for a string in a list of strings. -/
def memB (a : String) : List String → Bool
  | [] => false
  | b :: t => a == b || memB a t

/-- Python-dictionary update on an association list: an existing key keeps its
position and receives the new value, a new key is appended. -/
def dictInsert {β : Type} (d : List (String × β)) (k : String) (v : β) : List (String × β) :=
  if d.any (fun kv => kv.1 == k) then d.map (fun kv => if kv.1 == k then (k, v) else kv)
  else d ++ [(k, v)]

/-- Python-dictionary lookup on an association list. -/
def findVal {β : Type} : List (String × β) → String → Option β
  | [], _ => none
  | kv :: t, k => if kv.1 == k then some kv.2 else findVal t k

/-- Embedding of `LuaParser.find_function_definitions`: for every non-comment
line, every definition-regex match whose start is outside a string literal
records `name -> lineNum + 1`, later lines overwriting earlier ones. -/
def LuaParser.find_function_definitions (p : LuaParser) : List (String × Nat) :=
  p.lines.enum.foldl
    (fun d m =>
      if p.isInComment m.1 0 then d
      else
        (defFinditer m.2).foldl
          (fun d2 mt => if isInString m.2 mt.1 then d2 else dictInsert d2 mt.2 (m.1 + 1)) d)
    []

/-- Matcher for the head of the deferred-load registration regex
`script\.on_load\s*\(\s*function\s*\(\s*\)` anchored at the head of `s`;
returns the suffix at which the captured body starts. -/
def matchOnLoadHead (s : List Char) : Option (List Char) :=
  match dropLit "script.on_load".data s with
  | some r =>
    (match r.dropWhile isSpaceChar with
     | '(' :: r2 =>
       (match dropLit kwFunction (r2.dropWhile isSpaceChar) with
        | some r3 =>
          (match r3.dropWhile isSpaceChar with
           | '(' :: r4 =>
             (match r4.dropWhile isSpaceChar with
              | ')' :: r5 => some r5
              | _ => none)
           | _ => none)
        | none => none)
     | _ => none)
  | none => none

/-- Test for the closing part `end\s*\)` of the registration regex at the
head of `s`. -/
def onLoadClose (s : List Char) : Bool :=
  match dropLit kwEnd s with
  | some r =>
    (match r.dropWhile isSpaceChar with
     | ')' :: _ => true
     | _ => false)
  | none => false

/-- Length of the shortest body matched by the lazy group `(.*?)` before
`end\s*\)`, scanning forward from the body start (the lazy group extends one
character at a time, as the Python engine does under `DOTALL`). -/
def findOnLoadBodyEnd : List Char → Nat → Option Nat
  | [], _ => none
  | s@(_ :: t), i => if onLoadClose s then some i else findOnLoadBodyEnd t (i + 1)

/-- Leftmost match of the full registration regex in the content: the first
position whose head match also admits a closing `end\s*\)`; returns the
captured body. -/
def findOnLoadAux : List Char → Option (List Char)
  | [] => none
  | s@(_ :: t) =>
    match matchOnLoadHead s with
    | some body0 =>
      (match findOnLoadBodyEnd body0 0 with
       | some e => some (body0.take e)
       | none => findOnLoadAux t)
    | none => findOnLoadAux t

/-- Embedding of `LuaParser.find_on_load_functions`: `none` when the
registration regex does not match; otherwise the call-regex captures inside
the registration body, minus the sentinel name `script`. -/
def LuaParser.find_on_load_functions (p : LuaParser) : Option (List String) :=
  match findOnLoadAux p.content with
  | none => none
  | some body => some ((callFinditer body).filter (fun n => n != "script"))

/-- First line at which the name-specific body-locator pattern matches
outside a comment (shared start-of-body search of `find_function_calls` and
`check_forbidden_globals`). -/
def findStartAux (p : LuaParser) (nm : List Char) : List (List Char) → Nat → Option Nat
  | [], _ => none
  | line :: rest, i =>
    if funcPatternSearch nm line && !p.isInComment i 0 then some i
    else findStartAux p nm rest (i + 1)

/-- Start line of the located body of `name` in `p`, if any. -/
def LuaParser.findStartPos (p : LuaParser) (name : String) : Option Nat :=
  findStartAux p name.data p.lines 0

/-- Keyword-counting loop locating the end of a function body: comment lines
are skipped entirely, every other line adds its `\bfunction\b` count and
subtracts its `\bend\b` count, and the first line strictly after the start
where the running depth is exactly zero ends the body; if the depth never
returns to zero the line count of the file is returned. -/
def fnEndLoop (p : LuaParser) (startPos : Nat) : List Nat → Int → Nat
  | [], _ => p.lines.length
  | ln :: rest, depth =>
    if p.isInComment ln 0 then fnEndLoop p startPos rest depth
    else
      let line := p.lines.getD ln []
      let d : Int := depth + (countWord kwFunction line : Int) - (countWord kwEnd line : Int)
      if d = 0 ∧ startPos < ln then ln else fnEndLoop p startPos rest d

/-- End line of the body starting at `startPos` (embedding of the shared
depth-counting loop). -/
def LuaParser.findFunctionEnd (p : LuaParser) (startPos : Nat) : Nat :=
  fnEndLoop p startPos (List.range' startPos (p.lines.length - startPos)) 0

/-- Join lines with newline separators (Python `'\n'.join`). -/
def joinLines : List (List Char) → List Char
  | [] => []
  | [l] => l
  | l :: ls => l ++ '\n' :: joinLines ls

/-- Call-exclusion keywords of `find_function_calls`. -/
def kwExcl : List String := ["function", "if", "for", "while"]

/-- Embedding of `LuaParser.find_function_calls`: locate the body span of
`name`, join its lines, and collect all call-regex captures that are not
excluded keywords. -/
def LuaParser.find_function_calls (p : LuaParser) (name : String) : List String :=
  match p.findStartPos name with
  | none => []
  | some s =>
    let e := p.findFunctionEnd s
    let body := joinLines ((p.lines.drop s).take (e + 1 - s))
    (callFinditer body).filter (fun n => !(kwExcl.contains n))

/-- Forbidden root identifiers (`FORBIDDEN_ON_LOAD_GLOBALS`). -/
def forbiddenGlobals : List String := ["game", "rendering"]

/-- Single-quote character as a string, used to build diagnostic messages. -/
def quoteStr : String := String.mk [sqChar]

/-- Diagnostic message for a forbidden-global access (the f-string of
`check_forbidden_globals`). -/
def mkErrMsg (fname g : String) : String :=
  "Function " ++ quoteStr ++ fname ++ quoteStr ++ " accesses forbidden global " ++
    quoteStr ++ g ++ quoteStr ++ " during on_load"

/-- Diagnostics contributed by one forbidden root on one line: one entry per
pattern match whose start is outside a string literal. -/
def lineErrorsFor (fname : String) (ln : Nat) (line : List Char) (g : String) :
    List (Nat × String) :=
  (forbiddenPositions g.data line).filterMap
    (fun pos => if isInString line pos then none else some (ln + 1, mkErrMsg fname g))

/-- Diagnostics contributed by one line, over all forbidden roots in
configuration order. -/
def lineErrors (fname : String) (ln : Nat) (line : List Char) : List (Nat × String) :=
  forbiddenGlobals.flatMap (lineErrorsFor fname ln line)

/-- Event-handler suppression state of the per-line scan in
`check_forbidden_globals`: the flag `active` and its own depth counter. -/
structure EHState where
  active : Bool
  depth : Int
deriving DecidableEq

/-- Entry test for the nested event-handler registration: the line contains
both `script.on_event` and `function(`. -/
def ehEnter (line : List Char) : Bool :=
  containsSub "script.on_event".data line && containsSub "function(".data line

/-- Processing of one non-comment line of the scan: entering a nested
registration resets the state, an active state tracks the nested depth and
suppresses diagnostics (clearing itself once the depth falls to zero past the
start line), and an inactive state emits the diagnostics of the line. -/
def processLine (fname : String) (startPos ln : Nat) (line : List Char) (st : EHState) :
    EHState × List (Nat × String) :=
  let st1 := if ehEnter line then EHState.mk true 0 else st
  if st1.active then
    let d : Int := st1.depth + (countWord kwFunction line : Int) - (countWord kwEnd line : Int)
    if d ≤ 0 ∧ startPos < ln then (EHState.mk false d, [])
    else (EHState.mk true d, [])
  else (st1, lineErrors fname ln line)

/-- Scanning loop of `check_forbidden_globals` over the line indices of the body.
Each index is first used to read the line, which in the Python source can
raise `IndexError` when the located end equals the line count; this failure
is modelled as `Except.error`. -/
def checkLoop (p : LuaParser) (fname : String) (startPos : Nat) :
    List Nat → EHState → Except String (List (Nat × String))
  | [], _ => .ok []
  | ln :: rest, st =>
    if ln < p.lines.length then
      if p.isInComment ln 0 then checkLoop p fname startPos rest st
      else
        let pr := processLine fname startPos ln (p.lines.getD ln []) st
        match checkLoop p fname startPos rest pr.1 with
        | .ok l => .ok (pr.2 ++ l)
        | .error e => .error e
    else .error "IndexError: list index out of range"

/-- Embedding of `LuaParser.check_forbidden_globals`: locate the body of
`name` and run the suppression-aware scan over its inclusive line range. -/
def LuaParser.check_forbidden_globals (p : LuaParser) (fname : String) :
    Except String (List (Nat × String)) :=
  match p.findStartPos fname with
  | none => .ok []
  | some s => checkLoop p fname s (List.range' s (p.findFunctionEnd s + 1 - s)) (EHState.mk false 0)

/-- An input file of the analysis: a path and its content, `none` when the
file is unreadable or undecodable. -/
structure LuaFile where
  path : String
  text : Option (List Char)
deriving DecidableEq

/-- Base name of a path (the component after the last slash). -/
def baseName (p : String) : String :=
  String.mk ((p.data.reverse.takeWhile (fun c => c != '/')).reverse)

/-- Name-to-file index built by `trace_call_chain`: per readable file in
order, each defined name is written over any previous entry
(last-write-wins). -/
def buildAllFunctions (files : List LuaFile) : List (String × String) :=
  files.foldl
    (fun acc f =>
      match f.text with
      | none => acc
      | some content =>
        ((LuaParser.mk content).find_function_definitions).foldl
          (fun a2 kv => dictInsert a2 kv.1 f.path) acc)
    []

/-- Path-to-parser dictionary over the readable files, as built both in
`trace_call_chain` and in `check_on_load_globals`. -/
def buildParsers (files : List LuaFile) : List (String × LuaParser) :=
  files.foldl
    (fun acc f =>
      match f.text with
      | none => acc
      | some content => dictInsert acc f.path (LuaParser.mk content))
    []

/-- Callees of a visited function, found through the index and the parser of
its recorded file. -/
def callsOf (allFns : List (String × String)) (parsers : List (String × LuaParser))
    (f : String) : List String :=
  match findVal allFns f with
  | some path =>
    (match findVal parsers path with
     | some parser => parser.find_function_calls f
     | none => [])
  | none => []

/-- Worklist loop of `trace_call_chain`: pop a name, skip it when already
visited or unindexed, and otherwise mark it visited and push its callees.
The fuel argument makes the recursion structural; `traceFuel` below computes
a bound that provably always suffices, so the `none` case is dead code. -/
def traceAuxF (allFns : List (String × String)) (parsers : List (String × LuaParser)) :
    Nat → List String → List String → Option (List String)
  | _, visited, [] => some visited
  | 0, _, _ :: _ => none
  | fuel + 1, visited, f :: rest =>
    if memB f visited || (findVal allFns f).isNone then
      traceAuxF allFns parsers fuel visited rest
    else
      traceAuxF allFns parsers fuel (visited ++ [f]) (rest ++ callsOf allFns parsers f)

/-- Fuel bound for the worklist loop: the initial queue plus the callee count
of every indexed name. -/
def traceFuel (allFns : List (String × String)) (parsers : List (String × LuaParser))
    (initial : List String) : Nat :=
  initial.length + (allFns.map (fun kv => (callsOf allFns parsers kv.1).length)).sum

/-- Embedding of `trace_call_chain`: breadth-first closure of the seed names
over the function index. -/
def trace_call_chain (initial : List String) (files : List LuaFile) : Option (List String) :=
  let allFns := buildAllFunctions files
  let parsers := buildParsers files
  traceAuxF allFns parsers (traceFuel allFns parsers initial) [] initial

/-- A diagnostic record `(file, line, message)`. -/
abbrev Diag := String × Nat × String

/-- Inner loop of `check_on_load_globals`: check one reachable name against
every parsed file, tagging each produced error with the file path. -/
def checkFilesFor (f : String) : List (String × LuaParser) → Except String (List Diag)
  | [] => .ok []
  | pp :: rest =>
    match pp.2.check_forbidden_globals f with
    | .error e => .error e
    | .ok errs =>
      match checkFilesFor f rest with
      | .error e => .error e
      | .ok more => .ok (errs.map (fun em => (pp.1, em.1, em.2)) ++ more)

/-- Outer loop of `check_on_load_globals` over the reachable names. -/
def checkAllFuncs (parsers : List (String × LuaParser)) : List String → Except String (List Diag)
  | [] => .ok []
  | f :: fs =>
    match checkFilesFor f parsers with
    | .error e => .error e
    | .ok d1 =>
      match checkAllFuncs parsers fs with
      | .error e => .error e
      | .ok d2 => .ok (d1 ++ d2)

/-- Embedding of `check_on_load_globals`: resolve the entry file and the
deferred-load seeds (three single-diagnostic short circuits), trace the
reachable set, and scan every reachable name against every readable file. -/
def check_on_load_globals (files : List LuaFile) : Except String (List Diag) :=
  match files.find? (fun f => baseName f.path == "control.lua") with
  | none => .ok [("control.lua", 0, "control.lua not found")]
  | some control =>
    match control.text with
    | none => .ok [("control.lua", 0, "Failed to parse control.lua")]
    | some content =>
      match (LuaParser.mk content).find_on_load_functions with
      | none => .ok [("control.lua", 0, "on_load handler not found")]
      | some [] => .ok [("control.lua", 0, "on_load handler not found")]
      | some (s0 :: srest) =>
        match trace_call_chain (s0 :: srest) files with
        | none => .error "trace fuel exhausted"
        | some visited => checkAllFuncs (buildParsers files) visited

/-! Declarative reference definitions used to state the claims. The loops of
the embedding above are characterized against these differently-structured
formulations, so that each theorem relates the implementation to an
independent description rather than restating it. -/

/-- Reference single step of the quote scanner, carrying the previous
character explicitly. -/
def quoteStep (prev : Option Char) (c : Char) (st : Bool × Bool) : Bool × Bool :=
  let prevBS := prev == some bsChar
  if c == dqChar && !st.1 && !prevBS then (st.1, !st.2)
  else if c == sqChar && !st.2 && !prevBS then (!st.1, st.2)
  else st

/-- Reference quote scanner: structural recursion over the characters with
the previous character carried along. -/
def scanQuotes : Option Char → List Char → Bool × Bool → Bool × Bool
  | _, [], st => st
  | prev, c :: t, st => scanQuotes (some c) t (quoteStep prev c st)

/-- Reference formulation of the in-string test: scan the prefix of the line
before the position. -/
def isInStringRec (line : List Char) (pos : Nat) : Bool :=
  let st := scanQuotes none (line.take pos) (false, false)
  st.1 || st.2

/-- Modelled from the spec: an in-string test in which only a quote preceded
by an *unescaped* backslash is non-toggling, as the specification words it
(the state tracks, besides the two quote flags, whether the previous
character was an unescaped backslash). -/
def specQuoteScan : List Char → Bool × Bool × Bool → Bool × Bool × Bool
  | [], st => st
  | c :: t, st =>
    let inS := st.1
    let inD := st.2.1
    let esc := st.2.2
    let newEsc := c == bsChar && !esc
    let next :=
      if esc then (inS, inD)
      else if c == dqChar && !inS then (inS, !inD)
      else if c == sqChar && !inD then (!inS, inD)
      else (inS, inD)
    specQuoteScan t (next.1, next.2, newEsc)

/-- Modelled from the spec: position-in-string under the unescaped-backslash
reading of the escape rule. -/
def isInStringSpec (line : List Char) (pos : Nat) : Bool :=
  let st := specQuoteScan (line.take pos) (false, false, false)
  st.1 || st.2.1

/-- Signed keyword contribution of one line: its whole-word `function` count
minus its whole-word `end` count. -/
def lineCnt (p : LuaParser) (ln : Nat) : Int :=
  (countWord kwFunction (p.lines.getD ln []) : Int) -
    (countWord kwEnd (p.lines.getD ln []) : Int)

/-- Cumulative keyword depth over the non-comment lines of the half-open
range `[s, k)` (reference formulation for the body locator). -/
def depthUpTo (p : LuaParser) (s k : Nat) : Int :=
  (((List.range' s (k - s)).filter (fun ln => !p.isInComment ln 0)).map (lineCnt p)).sum

/-- Reference predicate: line `n` ends the body that starts at `startPos`
(strictly after the start, not a comment line, cumulative depth through `n`
equal to zero). -/
def bodyEndB (p : LuaParser) (startPos n : Nat) : Bool :=
  decide (startPos < n) && !p.isInComment n 0 && (depthUpTo p startPos (n + 1) == 0)

/-- Reference predicate: line `i` is a hit of the body-locator search for
`name` (pattern match outside a comment). -/
def startLineB (p : LuaParser) (name : String) (i : Nat) : Bool :=
  funcPatternSearch name.data (p.lines.getD i []) && !p.isInComment i 0

/-- All characters of `w` are word characters. -/
def wordChars (w : List Char) : Prop := ∀ c ∈ w, isWordChar c = true

/-- Shape of a call-regex capture: a non-empty word, optionally followed by a
dot and a second non-empty word. -/
def CallNameShape (name : String) : Prop :=
  (name.data ≠ [] ∧ wordChars name.data) ∨
  (∃ w w2, w ≠ [] ∧ w2 ≠ [] ∧ wordChars w ∧ wordChars w2 ∧ name.data = w ++ '.' :: w2)

/-- Declarative occurrence of the call pattern at position `i` of `s`: the
captured name, then optional whitespace, then an opening parenthesis. -/
def CallPatternAt (s : List Char) (i : Nat) (name : String) : Prop :=
  CallNameShape name ∧
  ∃ sp rest, (∀ c ∈ sp, isSpaceChar c = true) ∧ s.drop i = name.data ++ sp ++ '(' :: rest

/-- Pure per-line scan of the checker over a list of line indices (reference
formulation of `checkLoop` without the bounds check). -/
def emitsAt (p : LuaParser) (fname : String) (startPos : Nat) :
    List Nat → EHState → List (Nat × String)
  | [], _ => []
  | ln :: rest, st =>
    if p.isInComment ln 0 then emitsAt p fname startPos rest st
    else
      let pr := processLine fname startPos ln (p.lines.getD ln []) st
      pr.2 ++ emitsAt p fname startPos rest pr.1

/-- Suppression state reached after scanning a list of line indices. -/
def stateAfter (p : LuaParser) (fname : String) (startPos : Nat) :
    List Nat → EHState → EHState
  | [], st => st
  | ln :: rest, st =>
    if p.isInComment ln 0 then stateAfter p fname startPos rest st
    else stateAfter p fname startPos rest (processLine fname startPos ln (p.lines.getD ln []) st).1

/-- Suppression state in force when line `n` of the body starting at
`startPos` is about to be processed. -/
def stateAtLine (p : LuaParser) (fname : String) (startPos n : Nat) : EHState :=
  stateAfter p fname startPos (List.range' startPos (n - startPos)) (EHState.mk false 0)

/-- Whether the scan suppresses diagnostics on line `n`: either the line
itself triggers the nested-registration entry, or the state carried into the
line is active. -/
def suppressedAt (p : LuaParser) (fname : String) (startPos n : Nat) : Bool :=
  if ehEnter (p.lines.getD n []) then true else (stateAtLine p fname startPos n).active

/-- Number of unsuppressed forbidden-access matches of root `g` on `line`:
pattern matches whose start lies outside a string literal. -/
def accessCount (g : String) (line : List Char) : Nat :=
  ((forbiddenPositions g.data line).filter (fun pos => !isInString line pos)).length

/-- Declarative number of diagnostics that the check of `fname` against `p`
owes to root `g` on line `n`: the line must lie in the located body span, be
no comment, and be unsuppressed; each qualifying match yields one
diagnostic. -/
def perLineCount (p : LuaParser) (fname g : String) (n : Nat) : Nat :=
  match p.findStartPos fname with
  | none => 0
  | some s =>
    if decide (s ≤ n) && decide (n ≤ p.findFunctionEnd s) && !p.isInComment n 0 &&
        !suppressedAt p fname s n
    then accessCount g (p.lines.getD n []) else 0

/-- A function name free of single-quote characters (every name the analyzer
handles has this shape, which makes diagnostic messages parseable). -/
def quoteFree (s : String) : Bool := s.data.all (fun c => c != sqChar)

/-- Remaining work potential of the worklist loop: the cost of every indexed
entry whose key is not yet visited. Each loop iteration decreases
`queue.length + phiSum` by exactly one, which is why `traceFuel` always
suffices. -/
def phiSum (cost : String → Nat) (l : List (String × String)) (visited : List String) : Nat :=
  ((l.filter (fun kv => !memB kv.1 visited)).map (fun kv => cost kv.1)).sum

/-- Setup short-circuit condition of `check_on_load_globals`: no entry file,
unreadable entry file, no registration match, or an empty seed list. -/
def setupShortCircuit (files : List LuaFile) : Prop :=
  match files.find? (fun f => baseName f.path == "control.lua") with
  | none => True
  | some control =>
    match control.text with
    | none => True
    | some content =>
      (LuaParser.mk content).find_on_load_functions = none ∨
      (LuaParser.mk content).find_on_load_functions = some []

/-! Concrete corpora used as counterexamples, failing inputs and witnesses. -/

/-- Entry file registering `f` and `g` as deferred-load seeds. -/
def ctrlFG : LuaFile :=
  LuaFile.mk "control.lua" (some "script.on_load(function() f() g() end)".data)

/-- File defining `f` with a nested closure `g` that accesses `game.`. -/
def fileNested : LuaFile :=
  LuaFile.mk "a.lua" (some "function f()\n  g = function()\n    game.x()\n  end\nend".data)

/-- Corpus in which one textual access lies in the bodies of two reachable
functions. -/
def corpusOverlap : List LuaFile := [ctrlFG, fileNested]

/-- Entry file registering only `f`. -/
def ctrlF : LuaFile :=
  LuaFile.mk "control.lua" (some "script.on_load(function() f() end)".data)

/-- File whose single line opens a function that never closes. -/
def fileUnclosed : LuaFile := LuaFile.mk "broken.lua" (some "f = function(".data)

/-- Corpus on which the scan runs past the end of the line list. -/
def corpusUnclosed : List LuaFile := [ctrlF, fileUnclosed]

/-- Corpus whose entry file has a registration with an empty body. -/
def corpusEmptyBody : List LuaFile :=
  [LuaFile.mk "control.lua" (some "script.on_load(function() end)".data)]

/-- Corpus containing an unreadable file. -/
def corpusUnreadable : List LuaFile := [ctrlF, LuaFile.mk "bad.lua" none]

/-- Corpus defining the same reachable name in two files. -/
def corpusDupName : List LuaFile :=
  [ctrlF, LuaFile.mk "a.lua" (some "function f()\n  game.x()\nend".data),
   LuaFile.mk "b.lua" (some "function f()\n  rendering.y()\nend".data)]

/-- Line containing a nested event-handler registration together with a
forbidden access, used to witness the suppression behaviour. -/
def ehLine : List Char := "  script.on_event(ev, function() game.x() end)".data

/-- Parser whose function body contains a call written on a comment line. -/
def pComment : LuaParser := LuaParser.mk "function f()\n-- foo()\nend".data

/-! Theorems. -/

/-- C2: on a corpus whose entry seeds reach a function whose body never
closes (`broken.lua` is the single line `f = function(`), the located end
equals the line count and the checking loop of `check_forbidden_globals`
reads one line past the end of the line list; the failure escapes
`check_on_load_globals` (modelled as `Except.error`), contradicting the
claim that every failure mode is converted to a diagnostic. -/
theorem c2_index_error_on_unclosed_body :
    check_on_load_globals corpusUnclosed = .error "IndexError: list index out of range" := rfl

/-- C1 counterexample: in `corpusOverlap` the access `game.x()` on line 3 of
`a.lua` lies both in the body of reachable `f` and in the body of reachable
`g`, so the output contains two diagnostics at that file and line referencing
`game` — not exactly one. -/
theorem c1_counterexample :
    check_on_load_globals corpusOverlap =
      .ok [("a.lua", 3, mkErrMsg "f" "game"), ("a.lua", 3, mkErrMsg "g" "game")] ∧
    ([("a.lua", 3, mkErrMsg "f" "game"), ("a.lua", 3, mkErrMsg "g" "game")].filter
      (fun d => d.1 == "a.lua" && d.2.1 == 3)).length = 2 :=
  ⟨rfl, rfl⟩

/-- C4 counterexample: the entry file `script.on_load(function() end)`
contains the deferred-load registration pattern (`find_on_load_functions`
matches, returning an empty seed list), yet `check_on_load_globals` still
emits the single setup diagnostic — refuting the claimed "only if the
pattern is absent" direction. -/
theorem c4_counterexample :
    (LuaParser.mk "script.on_load(function() end)".data).find_on_load_functions = some [] ∧
    check_on_load_globals corpusEmptyBody = .ok [("control.lua", 0, "on_load handler not found")] :=
  ⟨rfl, rfl⟩

/-- C5 counterexample: `corpusUnreadable` contains the unreadable file
`bad.lua`, but the analysis output is empty — no diagnostic at line 0 for
that file is ever recorded, refuting the claim. -/
theorem c5_counterexample :
    check_on_load_globals corpusUnreadable = .ok [] ∧
    LuaFile.mk "bad.lua" none ∈ corpusUnreadable :=
  ⟨rfl, by decide⟩

/-- C8 counterexample: the body of `f` spans a comment line `-- foo()`, and
the extractor still returns `foo` (the extraction phase joins the span and
scans it without comment or string checks), refuting the "non-comment lines
only" part of the claim. -/
theorem c8_counterexample :
    pComment.find_function_calls "f" = ["f", "foo"] ∧ pComment.isInComment 1 0 = true :=
  ⟨rfl, rfl⟩

/-- Characterization of the start-of-body search: a `some` answer is a hit
with no earlier hit at or after the starting index, and a `none` answer means
no hit from the starting index on. -/
theorem findStartAux_spec (p : LuaParser) (nm : List Char) :
    ∀ (lst : List (List Char)) (i : Nat), lst = p.lines.drop i →
      (∀ s, findStartAux p nm lst i = some s →
        i ≤ s ∧ s < p.lines.length ∧
        (funcPatternSearch nm (p.lines.getD s []) && !p.isInComment s 0) = true ∧
        ∀ m, i ≤ m → m < s →
          (funcPatternSearch nm (p.lines.getD m []) && !p.isInComment m 0) = false) ∧
      (findStartAux p nm lst i = none →
        ∀ m, i ≤ m → m < p.lines.length →
          (funcPatternSearch nm (p.lines.getD m []) && !p.isInComment m 0) = false) := by
  intro lst
  induction lst with
  | nil =>
    intro i hdrop
    constructor
    · intro s hs; simp [findStartAux] at hs
    · intro _ m him hm
      have hle : p.lines.length ≤ i := by
        by_contra hlt
        push_neg at hlt
        have := List.drop_eq_nil_iff.mp hdrop.symm
        omega
      omega
  | cons line rest ih =>
    intro i hdrop
    have hget : p.lines[i]? = some line := by
      have h0 : (p.lines.drop i)[0]? = some line := by rw [← hdrop]; simp
      rw [List.getElem?_drop] at h0
      simpa using h0
    have hgetD : p.lines.getD i [] = line := by
      simp [List.getD_eq_getElem?_getD, hget]
    have hlen : i < p.lines.length := by
      by_contra hlt
      push_neg at hlt
      rw [List.getElem?_eq_none (by omega)] at hget
      exact Option.noConfusion hget
    have hrest : rest = p.lines.drop (i + 1) := by
      have h1 : (p.lines.drop i).tail = rest := by rw [← hdrop]; rfl
      rw [List.tail_drop] at h1
      exact h1.symm
    have ihs := ih (i + 1) hrest
    constructor
    · intro s hs
      rw [findStartAux] at hs
      by_cases hc : (funcPatternSearch nm line && !p.isInComment i 0) = true
      · rw [if_pos hc] at hs
        have hsi : s = i := by injection hs with h; omega
        subst hsi
        exact ⟨Nat.le_refl _, hlen, by rw [hgetD]; exact hc, fun m h1 h2 => by omega⟩
      · rw [if_neg hc] at hs
        obtain ⟨h1, h2, h3, h4⟩ := ihs.1 s hs
        refine ⟨by omega, h2, h3, fun m hm1 hm2 => ?_⟩
        rcases Nat.lt_or_ge m (i + 1) with hm | hm
        · have : m = i := by omega
          subst this
          rw [hgetD]
          exact Bool.not_eq_true _ ▸
            (by revert hc; cases (funcPatternSearch nm line && !p.isInComment m 0) <;> simp)
        · exact h4 m hm hm2
    · intro hs m him hm
      rw [findStartAux] at hs
      by_cases hc : (funcPatternSearch nm line && !p.isInComment i 0) = true
      · rw [if_pos hc] at hs; exact Option.noConfusion hs
      · rw [if_neg hc] at hs
        rcases Nat.lt_or_ge m (i + 1) with hm2 | hm2
        · have : m = i := by omega
          subst this
          rw [hgetD]
          revert hc; cases (funcPatternSearch nm line && !p.isInComment m 0) <;> simp
        · exact ihs.2 hs m hm2 hm

/-- C10: the forbidden-access check is keyed by function name across the
whole corpus. Universal part: each located body is the first (lowest) line of
the file at which the name-specific definition pattern matches outside a
comment, so every file gets its own first-matching body. Concrete part: in
`corpusDupName` the reachable name `f` is defined in both `a.lua` and
`b.lua`; the index keeps the last-written entry (`b.lua`), yet the output
also carries a diagnostic from the `a.lua` body. -/
theorem c10_per_file_first_match :
    (∀ (p : LuaParser) (name : String) (s : Nat), p.findStartPos name = some s →
      startLineB p name s = true ∧ ∀ m, m < s → startLineB p name m = false) ∧
    check_on_load_globals corpusDupName =
      .ok [("a.lua", 2, mkErrMsg "f" "game"), ("b.lua", 2, mkErrMsg "f" "rendering")] ∧
    findVal (buildAllFunctions corpusDupName) "f" = some "b.lua" := by
  refine ⟨?_, rfl, rfl⟩
  intro p name s hs
  have h := (findStartAux_spec p name.data p.lines 0 rfl).1 s hs
  exact ⟨h.2.2.1, fun m hm => h.2.2.2 m (Nat.zero_le m) hm⟩

/-- C10 witness: the located body of `f` in `pComment` starts at line index
0, which is a pattern hit with no earlier hit. -/
theorem c10_witness :
    startLineB pComment "f" 0 = true ∧ ∀ m, m < 0 → startLineB pComment "f" m = false :=
  c10_per_file_first_match.1 pComment "f" 0 rfl

/-- Depth accumulated through one more line: a comment line contributes
nothing, any other line adds its keyword count. -/
theorem depthUpTo_succ (p : LuaParser) (s k : Nat) (hk : s ≤ k) :
    depthUpTo p s (k + 1) =
      depthUpTo p s k + (if p.isInComment k 0 then 0 else lineCnt p k) := by
  unfold depthUpTo
  have h1 : k + 1 - s = (k - s) + 1 := by omega
  have h2 : List.range' s ((k - s) + 1) = List.range' s (k - s) ++ [s + (k - s)] := by
    rw [Nat.add_comm (k - s) 1, ← List.range'_append_1 s (k - s) 1]
    simp
  have h3 : s + (k - s) = k := by omega
  rw [h1, h2, h3, List.filter_append, List.map_append, List.sum_append]
  by_cases hc : p.isInComment k 0
  · simp [hc]
  · simp [hc]

/-- Characterization of the depth-counting loop on the ranges it is run on:
either no line of the range ends the body and the loop answers the file line
count, or the loop answers the first body-ending line of the range. -/
theorem fnEndLoop_spec (p : LuaParser) (s : Nat) :
    ∀ (m k : Nat) (d : Int), s ≤ k → d = depthUpTo p s k →
      ((∀ n, k ≤ n → n < k + m → bodyEndB p s n = false) ∧
        fnEndLoop p s (List.range' k m) d = p.lines.length) ∨
      (∃ e, k ≤ e ∧ e < k + m ∧ bodyEndB p s e = true ∧
        (∀ n, k ≤ n → n < e → bodyEndB p s n = false) ∧
        fnEndLoop p s (List.range' k m) d = e) := by
  intro m
  induction m with
  | zero =>
    intro k d hk hd
    left
    exact ⟨fun n h1 h2 => by omega, rfl⟩
  | succ m ih =>
    intro k d hk hd
    rw [List.range'_succ]
    rw [fnEndLoop]
    by_cases hc : p.isInComment k 0
    · rw [if_pos hc]
      have hend : bodyEndB p s k = false := by
        unfold bodyEndB
        simp [hc]
      have hd' : d = depthUpTo p s (k + 1) := by
        rw [depthUpTo_succ p s k hk, if_pos hc, hd]; ring
      rcases ih (k + 1) d (by omega) hd' with ⟨h1, h2⟩ | ⟨e, h1, h2, h3, h4, h5⟩
      · left
        refine ⟨fun n hn1 hn2 => ?_, h2⟩
        rcases Nat.eq_or_lt_of_le hn1 with rfl | hn
        · exact hend
        · exact h1 n (by omega) (by omega)
      · right
        refine ⟨e, by omega, by omega, h3, fun n hn1 hn2 => ?_, h5⟩
        rcases Nat.eq_or_lt_of_le hn1 with rfl | hn
        · exact hend
        · exact h4 n (by omega) hn2
    · rw [if_neg hc]
      have hd2 : d + (countWord kwFunction (p.lines.getD k []) : Int) -
          (countWord kwEnd (p.lines.getD k []) : Int) = depthUpTo p s (k + 1) := by
        rw [depthUpTo_succ p s k hk, if_neg hc, hd]
        unfold lineCnt
        ring
      by_cases hstop : (d + (countWord kwFunction (p.lines.getD k []) : Int) -
          (countWord kwEnd (p.lines.getD k []) : Int) = 0 ∧ s < k)
      · rw [if_pos hstop]
        right
        refine ⟨k, Nat.le_refl _, by omega, ?_, fun n h1 h2 => by omega, rfl⟩
        unfold bodyEndB
        have : depthUpTo p s (k + 1) = 0 := by rw [← hd2]; exact hstop.1
        simp [hc, hstop.2, this]
      · rw [if_neg hstop]
        have hend : bodyEndB p s k = false := by
          unfold bodyEndB
          rcases Decidable.not_and_iff_or_not.mp hstop with h | h
          · have : ¬ depthUpTo p s (k + 1) = 0 := by rw [← hd2]; exact h
            simp [this]
          · simp [h]
        rcases ih (k + 1) _ (by omega) hd2 with ⟨h1, h2⟩ | ⟨e, h1, h2, h3, h4, h5⟩
        · left
          refine ⟨fun n hn1 hn2 => ?_, h2⟩
          rcases Nat.eq_or_lt_of_le hn1 with rfl | hn
          · exact hend
          · exact h1 n (by omega) (by omega)
        · right
          refine ⟨e, by omega, by omega, h3, fun n hn1 hn2 => ?_, h5⟩
          rcases Nat.eq_or_lt_of_le hn1 with rfl | hn
          · exact hend
          · exact h4 n (by omega) hn2

/-- C7: the body locator advances line by line from the definition line,
skipping comment lines; every other line adds its whole-word `function`
count and subtracts its whole-word `end` count, and the body ends at the
first line after the start where the depth is zero (reference predicate
`bodyEndB` over the cumulative sum `depthUpTo`); when no such line exists
the locator answers the line count of the file. -/
theorem c7_body_locator (p : LuaParser) (s : Nat) :
    (p.findFunctionEnd s = p.lines.length ∧
      ∀ n, n < p.lines.length → bodyEndB p s n = false) ∨
    (bodyEndB p s (p.findFunctionEnd s) = true ∧ p.findFunctionEnd s < p.lines.length ∧
      ∀ n, n < p.findFunctionEnd s → bodyEndB p s n = false) := by
  have hd0 : (0 : Int) = depthUpTo p s s := by simp [depthUpTo]
  have hnotlt : ∀ n, ¬ s < n → bodyEndB p s n = false := by
    intro n hn
    unfold bodyEndB
    simp [hn]
  have h := fnEndLoop_spec p s (p.lines.length - s) s 0 (Nat.le_refl s) hd0
  rcases h with ⟨h1, h2⟩ | ⟨e, he1, he2, he3, he4, he5⟩
  · left
    refine ⟨h2, fun n hn => ?_⟩
    by_cases hsn : s < n
    · exact h1 n (by omega) (by omega)
    · exact hnotlt n hsn
  · right
    have hee : p.findFunctionEnd s = e := he5
    refine ⟨by rw [hee]; exact he3, by omega, fun n hn => ?_⟩
    rw [hee] at hn
    by_cases hsn : s < n
    · exact he4 n (by omega) hn
    · exact hnotlt n hsn

/-- C7 witness: on `pComment` the located body of line 0 ends at a line
satisfying the reference end predicate. -/
theorem c7_witness : bodyEndB pComment 0 (pComment.findFunctionEnd 0) = true := by
  rcases c7_body_locator pComment 0 with ⟨h1, _⟩ | ⟨h1, _, _⟩
  · exact absurd h1 (by decide)
  · exact h1

/-- Appending one character to a scanned prefix applies one further step,
with the carried previous character being the last of the prefix. -/
theorem scanQuotes_append (c : Char) :
    ∀ (l : List Char) (prev : Option Char) (st : Bool × Bool),
      scanQuotes prev (l ++ [c]) st =
        quoteStep (l.foldl (fun _ x => some x) prev) c (scanQuotes prev l st) := by
  intro l
  induction l with
  | nil => intro prev st; rfl
  | cons a t ih => intro prev st; simpa [scanQuotes] using ih (some a) (quoteStep prev a st)

/-- Folding a list into the carried previous character yields its last
element, or the initial value on an empty list. -/
theorem foldl_some_last :
    ∀ (l : List Char) (prev : Option Char),
      l.foldl (fun _ x => some x) prev =
        (match l.getLast? with | none => prev | some x => some x) := by
  intro l
  induction l with
  | nil => intro prev; rfl
  | cons a t ih =>
    intro prev
    have h1 : (a :: t).foldl (fun _ x => some x) prev = t.foldl (fun _ x => some x) (some a) := rfl
    rw [h1, ih (some a)]
    cases t with
    | nil => rfl
    | cons b u =>
      rcases hbl : (b :: u).getLast? with _ | x
      · exact absurd hbl (by simp)
      · rw [List.getLast?_cons_cons, hbl]

/-- Last element of a non-empty prefix of a list. -/
theorem take_getLast? (cl : List Char) (n : Nat) (h1 : 1 ≤ n) (h2 : n ≤ cl.length) :
    (cl.take n).getLast? = some (cl.getD (n - 1) ' ') := by
  have hlen : (cl.take n).length = n := by simp; omega
  have hn1 : n - 1 < cl.length := by omega
  rw [List.getLast?_eq_getElem?, hlen, List.getElem?_take_of_lt (by omega),
    List.getElem?_eq_getElem hn1]
  simp [List.getD_eq_getElem?_getD, List.getElem?_eq_getElem hn1]

/-- The index-based quote-state loop of the embedding agrees with the
reference scanner that carries the previous character structurally. -/
theorem strStateAt_eq_scan (cl : List Char) :
    ∀ n, n ≤ cl.length →
      strStateAt cl n = scanQuotes none (cl.take n) (false, false) := by
  intro n
  induction n with
  | zero => intro _; rfl
  | succ n ih =>
    intro hle
    have hn : n < cl.length := by omega
    have hget : cl[n]? = some (cl.getD n ' ') := by
      rw [List.getElem?_eq_getElem hn]
      simp [List.getD_eq_getElem?_getD, List.getElem?_eq_getElem hn]
    have htake : cl.take (n + 1) = cl.take n ++ [cl.getD n ' '] := by
      rw [List.take_succ, hget]; rfl
    have hLHS : strStateAt cl (n + 1) =
        (fun (st : Bool × Bool) i =>
          let c := cl.getD i ' '
          let prevBS := decide (i ≠ 0) && (cl.getD (i - 1) ' ' == bsChar)
          if c == dqChar && !st.1 && !prevBS then (st.1, !st.2)
          else if c == sqChar && !st.2 && !prevBS then (!st.1, st.2)
          else st) (strStateAt cl n) n := by
      unfold strStateAt
      rw [List.range_succ, List.foldl_append]
      rfl
    rw [hLHS, htake, scanQuotes_append, ← ih (by omega), foldl_some_last]
    by_cases h0 : n = 0
    · subst h0
      have he : cl.take 0 = ([] : List Char) := rfl
      rw [he]
      unfold quoteStep
      simp
    · rw [take_getLast? cl n (by omega) (by omega)]
      unfold quoteStep
      have hne : decide (n ≠ 0) = true := by simp [h0]
      simp [hne]

/-- The in-string test equals its reference left-to-right formulation. -/
theorem isInString_eq_rec (cl : List Char) (pos : Nat) :
    isInString cl pos = isInStringRec cl pos := by
  unfold isInString isInStringRec
  have h1 : cl.take pos = cl.take (min pos cl.length) := by
    rcases Nat.le_total pos cl.length with h | h
    · rw [Nat.min_eq_left h]
    · rw [Nat.min_eq_right h, List.take_of_length_le h, List.take_of_length_le (Nat.le_refl _)]
  rw [h1, strStateAt_eq_scan cl (min pos cl.length) (by omega)]

/-- C9 (amended): the in-string test toggles the two quote states left to
right over the line up to the position (first conjunct: equality with the
reference scanner), treats a quote preceded by any backslash character —
even one that is itself escaped — as non-toggling (second conjunct), tracks
the two quote types independently (third and fourth conjuncts: a quote of
one kind inside an active string of the other kind changes nothing), and
otherwise toggles the matching state (last two conjuncts). -/
theorem c9_in_string_scanner :
    (∀ (cl : List Char) (pos : Nat), isInString cl pos = isInStringRec cl pos) ∧
    (∀ (st : Bool × Bool),
      quoteStep (some bsChar) dqChar st = st ∧ quoteStep (some bsChar) sqChar st = st) ∧
    (∀ (prev : Option Char) (st : Bool × Bool), st.2 = true → quoteStep prev sqChar st = st) ∧
    (∀ (prev : Option Char) (st : Bool × Bool), st.1 = true → quoteStep prev dqChar st = st) ∧
    (∀ (prev : Option Char) (st : Bool × Bool), prev ≠ some bsChar → st.1 = false →
      quoteStep prev dqChar st = (st.1, !st.2)) ∧
    (∀ (prev : Option Char) (st : Bool × Bool), prev ≠ some bsChar → st.2 = false →
      quoteStep prev sqChar st = (!st.1, st.2)) := by
  refine ⟨isInString_eq_rec, fun st => ⟨by simp [quoteStep], by simp [quoteStep]⟩,
    fun prev st h => ?_, fun prev st h => ?_, fun prev st h1 h2 => ?_, fun prev st h1 h2 => ?_⟩
  · unfold quoteStep
    simp [h, show (sqChar == dqChar) = false by decide]
  · unfold quoteStep
    simp [h, show (dqChar == sqChar) = false by decide]
  · have hbs : (prev == some bsChar) = false := by simpa using h1
    unfold quoteStep
    rw [hbs]
    simp [h2]
  · have hbs : (prev == some bsChar) = false := by simpa using h1
    unfold quoteStep
    rw [hbs]
    simp [h2, show (sqChar == dqChar) = false by decide]

/-- C9 witness: concrete instances of the scanner properties. -/
theorem c9_witness :
    isInString "ab".data 1 = isInStringRec "ab".data 1 ∧
    quoteStep (some bsChar) dqChar (false, true) = (false, true) ∧
    quoteStep none sqChar (false, true) = (false, true) ∧
    quoteStep none dqChar (true, false) = (true, false) ∧
    quoteStep none dqChar (false, false) = (false, true) ∧
    quoteStep none sqChar (false, false) = (true, false) :=
  ⟨c9_in_string_scanner.1 "ab".data 1,
   (c9_in_string_scanner.2.1 (false, true)).1,
   c9_in_string_scanner.2.2.1 none (false, true) rfl,
   c9_in_string_scanner.2.2.2.1 none (true, false) rfl,
   c9_in_string_scanner.2.2.2.2.1 none (false, false) (by decide) rfl,
   c9_in_string_scanner.2.2.2.2.2 none (false, false) (by decide) rfl⟩

/-- Dropping the length of the matched word prefix is the same as dropping
while the predicate holds. -/
theorem drop_takeWhile_length (s : List Char) (p : Char → Bool) :
    s.drop (s.takeWhile p).length = s.dropWhile p := by
  nth_rewrite 2 [← List.takeWhile_append_dropWhile (p := p) (l := s)]
  exact List.drop_left _ _

/-- Soundness of the anchored call matcher: a successful match decomposes
the input as the captured name, whitespace, an opening parenthesis and the
remainder, and the name has the claimed word-dot-word shape. -/
theorem matchCallAt_sound (s : List Char) (name : String) (r : List Char)
    (h : matchCallAt s = some (name, r)) :
    CallNameShape name ∧
    ∃ sp, (∀ c ∈ sp, isSpaceChar c = true) ∧ s = name.data ++ (sp ++ '(' :: r) := by
  simp only [matchCallAt] at h
  have hsplit : s = s.takeWhile isWordChar ++ s.dropWhile isWordChar :=
    (List.takeWhile_append_dropWhile isWordChar s).symm
  split at h
  · exact absurd h (by simp)
  · next hwe =>
    have hwne : s.takeWhile isWordChar ≠ [] := by
      intro hh
      rw [hh] at hwe
      exact hwe rfl
    have hwords : ∀ c ∈ s.takeWhile isWordChar, isWordChar c = true :=
      fun c hc => List.mem_takeWhile_imp hc
    split at h
    · next res heq =>
      rw [drop_takeWhile_length] at heq
      split at heq
      · next r2 heq2 =>
        split at heq
        · exact absurd heq (by simp)
        · next hw2e =>
          have hw2ne : r2.takeWhile isWordChar ≠ [] := by
            intro hh
            rw [hh] at hw2e
            exact hw2e rfl
          have hw2words : ∀ c ∈ r2.takeWhile isWordChar, isWordChar c = true :=
            fun c hc => List.mem_takeWhile_imp hc
          split at heq
          · next r4 heq3 =>
            rw [drop_takeWhile_length] at heq3
            injection heq with heqr
            rw [← heqr] at h
            injection h with hp
            injection hp with h1 h2
            subst h1
            subst h2
            constructor
            · right
              exact ⟨s.takeWhile isWordChar, r2.takeWhile isWordChar, hwne, hw2ne,
                hwords, hw2words, rfl⟩
            · refine ⟨(r2.dropWhile isWordChar).takeWhile isSpaceChar,
                fun c hc => List.mem_takeWhile_imp hc, ?_⟩
              have hr2 : r2 = r2.takeWhile isWordChar ++ r2.dropWhile isWordChar :=
                (List.takeWhile_append_dropWhile isWordChar r2).symm
              have hr2d : r2.dropWhile isWordChar =
                  (r2.dropWhile isWordChar).takeWhile isSpaceChar ++ '(' :: r4 := by
                conv_lhs => rw [← List.takeWhile_append_dropWhile (p := isSpaceChar)
                  (l := r2.dropWhile isWordChar)]
                rw [heq3]
              calc s = s.takeWhile isWordChar ++ s.dropWhile isWordChar := hsplit
                _ = s.takeWhile isWordChar ++ '.' :: r2 := by rw [heq2]
                _ = s.takeWhile isWordChar ++ '.' ::
                      (r2.takeWhile isWordChar ++ r2.dropWhile isWordChar) := by
                      rw [← hr2]
                _ = s.takeWhile isWordChar ++ '.' :: (r2.takeWhile isWordChar ++
                      ((r2.dropWhile isWordChar).takeWhile isSpaceChar ++ '(' :: r4)) := by
                      rw [← hr2d]
                _ = ({ data := s.takeWhile isWordChar ++ '.' :: r2.takeWhile isWordChar } :
                      String).data ++
                      ((r2.dropWhile isWordChar).takeWhile isSpaceChar ++ '(' :: r4) := by
                      simp
          · exact absurd heq (by simp)
      · exact absurd heq (by simp)
    · next heq =>
      split at h
      · next r4 heq2 =>
        rw [drop_takeWhile_length] at heq2
        injection h with hp
        injection hp with h1 h2
        subst h1
        subst h2
        constructor
        · exact Or.inl ⟨by simpa using hwne, hwords⟩
        · refine ⟨(s.dropWhile isWordChar).takeWhile isSpaceChar,
            fun c hc => List.mem_takeWhile_imp hc, ?_⟩
          have hrd : s.dropWhile isWordChar =
              (s.dropWhile isWordChar).takeWhile isSpaceChar ++ '(' :: r4 := by
            conv_lhs => rw [← List.takeWhile_append_dropWhile (p := isSpaceChar)
              (l := s.dropWhile isWordChar)]
            rw [heq2]
          calc s = s.takeWhile isWordChar ++ s.dropWhile isWordChar := hsplit
            _ = s.takeWhile isWordChar ++
                  ((s.dropWhile isWordChar).takeWhile isSpaceChar ++ '(' :: r4) := by
                  rw [← hrd]
            _ = ({ data := s.takeWhile isWordChar } : String).data ++
                  ((s.dropWhile isWordChar).takeWhile isSpaceChar ++ '(' :: r4) := by simp
      · exact absurd h (by simp)

/-- A declarative call-pattern occurrence survives prefixing, with its
position shifted by the prefix length. -/
theorem CallPatternAt_shift (pre : List Char) (s : List Char) (i : Nat) (name : String)
    (h : CallPatternAt s i name) : CallPatternAt (pre ++ s) (pre.length + i) name := by
  obtain ⟨hs, sp, rest, hsp, hdrop⟩ := h
  refine ⟨hs, sp, rest, hsp, ?_⟩
  rw [← List.drop_drop, List.drop_left]
  exact hdrop

/-- Soundness of the call-regex scan: every collected name occurs in the
scanned text at some position as a declarative call-pattern match. -/
theorem callFinditerAux_sound :
    ∀ (fuel : Nat) (s : List Char) (name : String), name ∈ callFinditerAux fuel s →
      ∃ i, CallPatternAt s i name := by
  intro fuel
  induction fuel with
  | zero => intro s name h; simp [callFinditerAux] at h
  | succ fuel ih =>
    intro s name h
    cases s with
    | nil => simp [callFinditerAux] at h
    | cons a t =>
      rw [callFinditerAux] at h
      cases hm : matchCallAt (a :: t) with
      | some pr =>
        rw [hm] at h
        obtain ⟨nm, r⟩ := pr
        obtain ⟨hs, sp, hsp, hdec⟩ := matchCallAt_sound _ _ _ hm
        rcases List.mem_cons.mp h with rfl | hmem
        · exact ⟨0, hs, sp, r, hsp, by simpa using hdec⟩
        · obtain ⟨i, hi⟩ := ih r name hmem
          refine ⟨(nm.data ++ (sp ++ ['('])).length + i, ?_⟩
          have hshift := CallPatternAt_shift (nm.data ++ (sp ++ ['('])) r i name hi
          have heq : (nm.data ++ (sp ++ ['('])) ++ r = a :: t := by
            rw [hdec]
            simp
          rw [heq] at hshift
          exact hshift
      | none =>
        rw [hm] at h
        obtain ⟨i, hi⟩ := ih t name h
        obtain ⟨hs, sp, rest, hsp, hd⟩ := hi
        exact ⟨i + 1, hs, sp, rest, hsp, by simpa using hd⟩

/-- C8 (amended): every name returned by the call extractor is not one of
the excluded keywords and occurs somewhere in the joined text of the located
body span as a match of `IDENTIFIER(.IDENTIFIER)?` followed by optional
whitespace and `(` — with no comment-line or string-literal restriction (the
extraction phase scans the joined span blindly, as the counterexample
`c8_counterexample` shows); the left-to-right scan is non-overlapping, so
overlapping occurrences may be omitted, and duplicates may appear. -/
theorem c8_call_extractor (p : LuaParser) (fname name : String)
    (h : name ∈ p.find_function_calls fname) :
    kwExcl.contains name = false ∧
    ∃ s, p.findStartPos fname = some s ∧
      ∃ i, CallPatternAt
        (joinLines ((p.lines.drop s).take (p.findFunctionEnd s + 1 - s))) i name := by
  unfold LuaParser.find_function_calls at h
  cases hsp : p.findStartPos fname with
  | none => rw [hsp] at h; simp at h
  | some s =>
    rw [hsp] at h
    have hmem := List.mem_filter.mp h
    refine ⟨by simpa using hmem.2, s, rfl, ?_⟩
    exact callFinditerAux_sound _ _ _ hmem.1

/-- C8 witness: the extracted name `foo` of `pComment` is no keyword and
occurs as a call-pattern match in the joined body span. -/
theorem c8_witness :
    kwExcl.contains "foo" = false ∧
    ∃ s, pComment.findStartPos "f" = some s ∧
      ∃ i, CallPatternAt
        (joinLines ((pComment.lines.drop s).take (pComment.findFunctionEnd s + 1 - s))) i "foo" :=
  c8_call_extractor pComment "f" "foo" (by decide)

/-- Boolean membership agrees with propositional membership. -/
theorem memB_iff (a : String) : ∀ l : List String, memB a l = true ↔ a ∈ l := by
  intro l
  induction l with
  | nil => simp [memB]
  | cons b t ih => simp [memB, ih, List.mem_cons]

/-- Membership after appending a single element. -/
theorem memB_append_single (a x : String) (l : List String) :
    memB a (l ++ [x]) = (memB a l || a == x) := by
  induction l with
  | nil => simp [memB]
  | cons b t ih => simp [memB, ih, Bool.or_assoc]

/-- A successful dictionary lookup exhibits a member entry. -/
theorem findVal_mem {β : Type} (l : List (String × β)) (k : String) (v : β)
    (h : findVal l k = some v) : (k, v) ∈ l := by
  induction l with
  | nil => simp [findVal] at h
  | cons kv t ih =>
    obtain ⟨k1, v1⟩ := kv
    rw [findVal] at h
    split at h
    · next hk =>
      injection h with hv
      have hk1 : k1 = k := by simpa using hk
      subst hk1
      subst hv
      exact List.mem_cons_self _ _
    · exact List.mem_cons_of_mem _ (ih h)

/-- Cost sums shrink when the filter predicate strengthens. -/
theorem sum_filter_mono {α : Type} (c : α → Nat) (p q : α → Bool)
    (h : ∀ x, q x = true → p x = true) :
    ∀ l : List α, ((l.filter q).map c).sum ≤ ((l.filter p).map c).sum := by
  intro l
  induction l with
  | nil => simp
  | cons a t ih =>
    simp only [List.filter_cons]
    by_cases hq : q a = true
    · rw [if_pos hq, if_pos (h a hq)]
      simpa using ih
    · rw [if_neg hq]
      by_cases hp : p a = true
      · rw [if_pos hp]
        simp only [List.map_cons, List.sum_cons]
        omega
      · rw [if_neg hp]
        exact ih

/-- Marking a fresh indexed key as visited removes at least its own cost
from the remaining work potential. -/
theorem phiSum_snoc (cost : String → Nat) (visited : List String) (f : String) :
    ∀ l : List (String × String), f ∈ l.map Prod.fst → memB f visited = false →
      cost f + phiSum cost l (visited ++ [f]) ≤ phiSum cost l visited := by
  intro l
  induction l with
  | nil => simp
  | cons kv t ih =>
    intro hmem hnv
    have hmono := sum_filter_mono (fun kv : String × String => cost kv.1)
      (fun kv => !memB kv.1 visited) (fun kv => !memB kv.1 (visited ++ [f]))
      (fun x hx => by
        simp only at hx ⊢
        rw [memB_append_single] at hx
        simp only [Bool.not_or] at hx
        exact (Bool.and_eq_true _ _ |>.mp hx).1) t
    by_cases hk : kv.1 = f
    · have hold : (!memB f visited) = true := by rw [hnv]; rfl
      have hnew : (!memB f (visited ++ [f])) = false := by
        rw [memB_append_single]
        simp
      simp only [phiSum, List.filter_cons, hk, hold, hnew, if_true, Bool.false_eq_true,
        if_false, List.map_cons, List.sum_cons]
      omega
    · have hsame : memB kv.1 (visited ++ [f]) = memB kv.1 visited := by
        rw [memB_append_single]
        have hbe : (kv.1 == f) = false := by simpa using hk
        simp [hbe]
      have hmem2 : f ∈ t.map Prod.fst := by
        rcases List.mem_map.mp hmem with ⟨x, hx, hfx⟩
        rcases List.mem_cons.mp hx with rfl | hxt
        · exact absurd hfx hk
        · exact List.mem_map.mpr ⟨x, hxt, hfx⟩
      have iht := ih hmem2 hnv
      unfold phiSum at iht ⊢
      simp only [List.filter_cons, hsame]
      by_cases hkeep : (!memB kv.1 visited) = true
      · simp only [hkeep, if_true, List.map_cons, List.sum_cons]
        omega
      · have hkeep2 : (!memB kv.1 visited) = false := by simpa using hkeep
        simp only [hkeep2, Bool.false_eq_true, if_false]
        exact iht

/-- Fuel sufficiency of the worklist loop: whenever the fuel is at least the
queue length plus the remaining work potential, the loop finishes (it never
answers `none`). This is the termination argument of the claim: each
iteration decreases that quantity by one. -/
theorem traceAuxF_isSome (allFns : List (String × String)) (parsers : List (String × LuaParser)) :
    ∀ (fuel : Nat) (visited queue : List String),
      queue.length + phiSum (fun k => (callsOf allFns parsers k).length) allFns visited ≤ fuel →
      (traceAuxF allFns parsers fuel visited queue).isSome = true := by
  intro fuel
  induction fuel with
  | zero =>
    intro visited queue h
    cases queue with
    | nil => simp [traceAuxF]
    | cons f rest => simp at h
  | succ fuel ih =>
    intro visited queue h
    cases queue with
    | nil => simp [traceAuxF]
    | cons f rest =>
      rw [traceAuxF]
      by_cases hc : (memB f visited || (findVal allFns f).isNone) = true
      · rw [if_pos hc]
        apply ih
        simp only [List.length_cons] at h
        omega
      · rw [if_neg hc]
        apply ih
        simp only [Bool.or_eq_true, not_or] at hc
        have hmv : memB f visited = false := by simpa using hc.1
        have hsome : ∃ v, findVal allFns f = some v := by
          rcases hfv : findVal allFns f with _ | v
          · exact absurd (by rw [hfv]; rfl) hc.2
          · exact ⟨v, rfl⟩
        obtain ⟨path, hpath⟩ := hsome
        have hkey : f ∈ allFns.map Prod.fst :=
          List.mem_map.mpr ⟨(f, path), findVal_mem _ _ _ hpath, rfl⟩
        have hsnoc := phiSum_snoc (fun k => (callsOf allFns parsers k).length)
          visited f allFns hkey hmv
        simp only at hsnoc
        simp only [List.length_append, List.length_cons] at h ⊢
        omega

/-- Invariant of the worklist loop: the visited list stays duplicate-free
and all its members are indexed names. -/
theorem traceAuxF_invariant (allFns : List (String × String)) (parsers : List (String × LuaParser)) :
    ∀ (fuel : Nat) (visited queue res : List String),
      traceAuxF allFns parsers fuel visited queue = some res →
      visited.Nodup → (∀ x ∈ visited, ∃ v, findVal allFns x = some v) →
      res.Nodup ∧ (∀ x ∈ res, ∃ v, findVal allFns x = some v) := by
  intro fuel
  induction fuel with
  | zero =>
    intro visited queue res h hnd hmem
    cases queue with
    | nil =>
      rw [traceAuxF] at h
      injection h with h
      subst h
      exact ⟨hnd, hmem⟩
    | cons f rest => exact absurd h (by rw [traceAuxF]; simp)
  | succ fuel ih =>
    intro visited queue res h hnd hmem
    cases queue with
    | nil =>
      rw [traceAuxF] at h
      injection h with h
      subst h
      exact ⟨hnd, hmem⟩
    | cons f rest =>
      rw [traceAuxF] at h
      by_cases hc : (memB f visited || (findVal allFns f).isNone) = true
      · rw [if_pos hc] at h
        exact ih visited rest res h hnd hmem
      · rw [if_neg hc] at h
        simp only [Bool.or_eq_true, not_or] at hc
        have hmv : memB f visited = false := by simpa using hc.1
        have hnotmem : f ∉ visited := fun hf => by
          rw [(memB_iff f visited).mpr hf] at hmv
          exact Bool.noConfusion hmv
        have hsome : ∃ v, findVal allFns f = some v := by
          rcases hfv : findVal allFns f with _ | v
          · exact absurd (by rw [hfv]; rfl) hc.2
          · exact ⟨v, rfl⟩
        apply ih (visited ++ [f]) _ res h
        · simp [List.nodup_append, hnd, List.disjoint_singleton]
          exact fun hf => hnotmem hf
        · intro x hx
          rcases List.mem_append.mp hx with hx | hx
          · exact hmem x hx
          · rw [List.mem_singleton.mp hx]
            exact hsome


/-- Key list of a dictionary update: unchanged for an existing key, extended
by the new key otherwise. -/
theorem dictInsert_keys {β : Type} (d : List (String × β)) (k : String) (v : β) :
    (dictInsert d k v).map Prod.fst =
      if d.any (fun kv => kv.1 == k) then d.map Prod.fst else d.map Prod.fst ++ [k] := by
  unfold dictInsert
  split
  · next hany =>
    simp only [hany, if_true, List.map_map]
    apply List.map_congr_left
    intro kv _
    by_cases hk : (kv.1 == k) = true
    · simp only [Function.comp_apply, if_pos hk]
      have : kv.1 = k := by simpa using hk
      simp [this]
    · simp only [Function.comp_apply, if_neg hk]
  · next hany =>
    have h2 : (d.any fun kv => kv.1 == k) = false := by
      cases hb : d.any (fun kv => kv.1 == k) with
      | false => rfl
      | true => exact absurd hb hany
    simp only [h2, Bool.false_eq_true, if_false, List.map_append]
    rfl

/-- Dictionary updates preserve duplicate-freeness of the key list. -/
theorem keysNodup_dictInsert {β : Type} (d : List (String × β)) (k : String) (v : β)
    (h : (d.map Prod.fst).Nodup) : ((dictInsert d k v).map Prod.fst).Nodup := by
  rw [dictInsert_keys]
  split
  · exact h
  · next hany =>
    have hk : k ∉ d.map Prod.fst := by
      intro hkm
      rcases List.mem_map.mp hkm with ⟨kv, hkv, hfst⟩
      exact hany (List.any_eq_true.mpr ⟨kv, hkv, by simp [hfst]⟩)
    rw [List.nodup_append]
    exact ⟨h, List.nodup_singleton _, by simpa [List.disjoint_singleton] using hk⟩

/-- A fold whose step preserves key-duplicate-freeness preserves it
globally. -/
theorem foldl_preserves_keysNodup {α β : Type} (g : List (String × β) → α → List (String × β))
    (hg : ∀ acc x, (acc.map Prod.fst).Nodup → ((g acc x).map Prod.fst).Nodup) :
    ∀ (l : List α) (acc : List (String × β)),
      (acc.map Prod.fst).Nodup → ((l.foldl g acc).map Prod.fst).Nodup := by
  intro l
  induction l with
  | nil => intro acc h; exact h
  | cons x t ih => intro acc h; exact ih (g acc x) (hg acc x h)

/-- The function index has pairwise distinct names, so its length is the
distinct indexed name count. -/
theorem buildAllFunctions_keysNodup (files : List LuaFile) :
    ((buildAllFunctions files).map Prod.fst).Nodup := by
  unfold buildAllFunctions
  apply foldl_preserves_keysNodup
  · intro acc f hacc
    cases f.text with
    | none => simpa using hacc
    | some content =>
      simp only
      apply foldl_preserves_keysNodup
      · intro acc2 kv h2
        exact keysNodup_dictInsert acc2 kv.1 f.path h2
      · exact hacc
  · simp

/-- The parser dictionary has pairwise distinct paths. -/
theorem buildParsers_keysNodup (files : List LuaFile) :
    ((buildParsers files).map Prod.fst).Nodup := by
  unfold buildParsers
  apply foldl_preserves_keysNodup
  · intro acc f hacc
    cases f.text with
    | none => simpa using hacc
    | some content => exact keysNodup_dictInsert acc f.path (LuaParser.mk content) hacc
  · simp

/-- C3: for every seed list and corpus the trace terminates with a result
(`some`), obtained with the sufficient fuel bound; the resulting reachable
set is duplicate-free, every member is an indexed name, the index keys are
pairwise distinct, and the reachable set size never exceeds the number of
distinct indexed names. -/
theorem c3_trace_terminates_and_bounded (initial : List String) (files : List LuaFile) :
    ∃ visited, trace_call_chain initial files = some visited ∧ visited.Nodup ∧
      (∀ f ∈ visited, ∃ path, findVal (buildAllFunctions files) f = some path) ∧
      ((buildAllFunctions files).map Prod.fst).Nodup ∧
      visited.length ≤ (buildAllFunctions files).length := by
  have hfuel : initial.length +
      phiSum (fun k => (callsOf (buildAllFunctions files) (buildParsers files) k).length)
        (buildAllFunctions files) [] ≤
      traceFuel (buildAllFunctions files) (buildParsers files) initial := by
    unfold traceFuel phiSum
    have hfil : (buildAllFunctions files).filter (fun kv => !memB kv.1 []) =
        buildAllFunctions files := List.filter_eq_self.mpr (fun kv _ => by simp [memB])
    rw [hfil]
  have hs := traceAuxF_isSome (buildAllFunctions files) (buildParsers files)
    (traceFuel (buildAllFunctions files) (buildParsers files) initial) [] initial hfuel
  rcases ho : traceAuxF (buildAllFunctions files) (buildParsers files)
      (traceFuel (buildAllFunctions files) (buildParsers files) initial) [] initial
    with _ | visited
  · rw [ho] at hs
    exact absurd hs (by simp)
  · have htc : trace_call_chain initial files = some visited := ho
    obtain ⟨hnd, hmemv⟩ := traceAuxF_invariant _ _ _ _ _ _ ho List.nodup_nil (by simp)
    refine ⟨visited, htc, hnd, fun f hf => hmemv f hf, buildAllFunctions_keysNodup files, ?_⟩
    have hsub : ∀ x ∈ visited, x ∈ (buildAllFunctions files).map Prod.fst := by
      intro x hx
      obtain ⟨v, hv⟩ := hmemv x hx
      exact List.mem_map.mpr ⟨(x, v), findVal_mem _ _ _ hv, rfl⟩
    calc visited.length = visited.toFinset.card := (List.toFinset_card_of_nodup hnd).symm
      _ ≤ ((buildAllFunctions files).map Prod.fst).toFinset.card :=
          Finset.card_le_card (fun x hx => by
            rw [List.mem_toFinset] at hx ⊢
            exact hsub x hx)
      _ ≤ ((buildAllFunctions files).map Prod.fst).length := List.toFinset_card_le _
      _ = (buildAllFunctions files).length := List.length_map _ _

/-- Every diagnostic a line contributes carries that line number plus
one. -/
theorem lineErrors_fst (fname : String) (ln : Nat) (line : List Char) :
    ∀ e ∈ lineErrors fname ln line, e.1 = ln + 1 := by
  intro e he
  unfold lineErrors at he
  rcases List.mem_flatMap.mp he with ⟨g, _, hg⟩
  unfold lineErrorsFor at hg
  rcases List.mem_filterMap.mp hg with ⟨pos, _, hpos⟩
  by_cases hs : isInString line pos = true
  · rw [if_pos hs] at hpos
    exact Option.noConfusion hpos
  · rw [if_neg hs] at hpos
    injection hpos with hpos
    rw [← hpos]

/-- Every diagnostic emitted while processing a line carries that line
number plus one. -/
theorem processLine_fst (fname : String) (startPos ln : Nat) (line : List Char) (st : EHState) :
    ∀ e ∈ (processLine fname startPos ln line st).2, e.1 = ln + 1 := by
  intro e he
  simp only [processLine] at he
  repeat' split at he
  all_goals first
  | exact lineErrors_fst fname ln line e he
  | simp at he

/-- Every diagnostic of a successful scan has a positive line number. -/
theorem checkLoop_fst (p : LuaParser) (fname : String) (startPos : Nat) :
    ∀ (lns : List Nat) (st : EHState) (l : List (Nat × String)),
      checkLoop p fname startPos lns st = .ok l → ∀ e ∈ l, 1 ≤ e.1 := by
  intro lns
  induction lns with
  | nil =>
    intro st l h e he
    rw [checkLoop] at h
    injection h with h
    rw [← h] at he
    simp at he
  | cons ln rest ih =>
    intro st l h e he
    rw [checkLoop] at h
    simp only [] at h
    split at h
    · split at h
      · exact ih st l h e he
      · split at h
        · next l2 heq =>
          injection h with h
          rw [← h] at he
          rcases List.mem_append.mp he with he | he
          · have := processLine_fst fname startPos ln (p.lines.getD ln []) st e he
            omega
          · exact ih _ l2 heq e he
        · exact Except.noConfusion h
    · exact Except.noConfusion h

/-- Every diagnostic of a successful per-function check has a positive line
number. -/
theorem check_forbidden_globals_fst (p : LuaParser) (fname : String)
    (errs : List (Nat × String)) (h : p.check_forbidden_globals fname = .ok errs) :
    ∀ e ∈ errs, 1 ≤ e.1 := by
  unfold LuaParser.check_forbidden_globals at h
  split at h
  · injection h with h
    rw [← h]
    simp
  · exact checkLoop_fst p fname _ _ _ _ h

/-- Every diagnostic of the per-file inner loop has a positive line
number. -/
theorem checkFilesFor_fst (f : String) :
    ∀ (parsers : List (String × LuaParser)) (l : List Diag),
      checkFilesFor f parsers = .ok l → ∀ d ∈ l, 1 ≤ d.2.1 := by
  intro parsers
  induction parsers with
  | nil =>
    intro l h d hd
    rw [checkFilesFor] at h
    injection h with h
    rw [← h] at hd
    simp at hd
  | cons pp rest ih =>
    intro l h d hd
    rw [checkFilesFor] at h
    split at h
    · exact Except.noConfusion h
    · next errs heq =>
      split at h
      · exact Except.noConfusion h
      · next more heq2 =>
        injection h with h
        rw [← h] at hd
        rcases List.mem_append.mp hd with hd | hd
        · rcases List.mem_map.mp hd with ⟨em, hem, hde⟩
          have := check_forbidden_globals_fst pp.2 f errs heq em hem
          rw [← hde]
          simpa using this
        · exact ih more heq2 d hd

/-- Every diagnostic of the main checking phase has a positive line number,
so the main phase can never produce a line-0 setup-style diagnostic. -/
theorem checkAllFuncs_fst (parsers : List (String × LuaParser)) :
    ∀ (fs : List String) (l : List Diag),
      checkAllFuncs parsers fs = .ok l → ∀ d ∈ l, 1 ≤ d.2.1 := by
  intro fs
  induction fs with
  | nil =>
    intro l h d hd
    rw [checkAllFuncs] at h
    injection h with h
    rw [← h] at hd
    simp at hd
  | cons f rest ih =>
    intro l h d hd
    rw [checkAllFuncs] at h
    split at h
    · exact Except.noConfusion h
    · next d1 heq =>
      split at h
      · exact Except.noConfusion h
      · next d2 heq2 =>
        injection h with h
        rw [← h] at hd
        rcases List.mem_append.mp hd with hd | hd
        · exact checkFilesFor_fst f parsers d1 heq d hd
        · exact ih d2 heq2 d hd

/-- C4 (amended): the analysis emits exactly one line-0 diagnostic at the
entry file and nothing else if and only if the setup short-circuit condition
holds: the entry file `control.lua` is absent, or unreadable, or its text
contains no deferred-load registration match, or the registration body
yields an empty seed list (the original claim omitted the last two corpus
states; `c4_counterexample` shows the empty-seed case). -/
theorem c4_setup_short_circuit (files : List LuaFile) :
    (∃ m, check_on_load_globals files = .ok [("control.lua", 0, m)]) ↔
      setupShortCircuit files := by
  unfold check_on_load_globals setupShortCircuit
  cases hf : files.find? (fun f => baseName f.path == "control.lua") with
  | none =>
    simp only [hf]
    exact ⟨fun _ => trivial, fun _ => ⟨"control.lua not found", rfl⟩⟩
  | some control =>
    simp only [hf]
    cases ht : control.text with
    | none =>
      simp only [ht]
      exact ⟨fun _ => trivial, fun _ => ⟨"Failed to parse control.lua", rfl⟩⟩
    | some content =>
      simp only [ht]
      cases ho : (LuaParser.mk content).find_on_load_functions with
      | none =>
        exact ⟨fun _ => Or.inl rfl, fun _ => ⟨"on_load handler not found", rfl⟩⟩
      | some seeds =>
        cases seeds with
        | nil =>
          exact ⟨fun _ => Or.inr rfl, fun _ => ⟨"on_load handler not found", rfl⟩⟩
        | cons s0 srest =>
          constructor
          · rintro ⟨m, hm⟩
            dsimp only at hm
            cases htr : trace_call_chain (s0 :: srest) files with
            | none =>
              rw [htr] at hm
              exact Except.noConfusion hm
            | some visited =>
              rw [htr] at hm
              have := checkAllFuncs_fst (buildParsers files) visited _ hm
                ("control.lua", 0, m) (by simp)
              simp at this
          · rintro (h | h)
            · exact Option.noConfusion h
            · simp at h

/-- C4 witness: the empty-body corpus satisfies the short-circuit condition,
so the analysis emits the single setup diagnostic. -/
theorem c4_witness :
    ∃ m, check_on_load_globals corpusEmptyBody = .ok [("control.lua", 0, m)] :=
  (c4_setup_short_circuit corpusEmptyBody).mpr (Or.inr rfl)

/-- A fold whose step ignores unreadable files only sees the readable
ones. -/
theorem foldl_skip_unreadable {σ : Type} (step : σ → LuaFile → σ)
    (hstep : ∀ acc f, f.text = none → step acc f = acc) :
    ∀ (files : List LuaFile) (acc : σ),
      files.foldl step acc = (files.filter (fun g => g.text.isSome)).foldl step acc := by
  intro files
  induction files with
  | nil => intro acc; rfl
  | cons f t ih =>
    intro acc
    cases hf : f.text with
    | none =>
      rw [List.foldl_cons, hstep acc f hf, List.filter_cons,
        show (f.text.isSome = false) from by rw [hf]; rfl]
      simp only [Bool.false_eq_true, if_false]
      exact ih acc
    | some content =>
      rw [List.foldl_cons, List.filter_cons, show (f.text.isSome = true) from by rw [hf]; rfl]
      simp only [if_true]
      rw [List.foldl_cons]
      exact ih (step acc f)

/-- Every entry of an updated dictionary has the inserted key or an existing
key. -/
theorem dictInsert_mem_key {β : Type} (d : List (String × β)) (k : String) (v : β)
    (e : String × β) (he : e ∈ dictInsert d k v) : e.1 = k ∨ e.1 ∈ d.map Prod.fst := by
  unfold dictInsert at he
  split at he
  · rcases List.mem_map.mp he with ⟨kv, hkv, hmap⟩
    by_cases hk : (kv.1 == k) = true
    · rw [if_pos hk] at hmap
      left
      rw [← hmap]
    · rw [if_neg hk] at hmap
      right
      rw [← hmap]
      exact List.mem_map.mpr ⟨kv, hkv, rfl⟩
  · rcases List.mem_append.mp he with he | he
    · exact Or.inr (List.mem_map.mpr ⟨e, he, rfl⟩)
    · left
      rw [List.mem_singleton.mp he]

/-- Every key of the parser dictionary is the path of some readable file of
the corpus. -/
theorem buildParsers_keys_from_files :
    ∀ (files : List LuaFile) (acc : List (String × LuaParser)) (x : String),
      x ∈ ((files.foldl (fun acc f =>
          match f.text with
          | none => acc
          | some content => dictInsert acc f.path (LuaParser.mk content)) acc).map Prod.fst) →
      x ∈ acc.map Prod.fst ∨ ∃ g ∈ files, g.path = x ∧ g.text ≠ none := by
  intro files
  induction files with
  | nil => intro acc x hx; exact Or.inl hx
  | cons f t ih =>
    intro acc x hx
    rw [List.foldl_cons] at hx
    rcases ih _ x hx with hx2 | ⟨g, hg, hgx⟩
    · cases hf : f.text with
      | none =>
        rw [hf] at hx2
        exact Or.inl hx2
      | some content =>
        rw [hf] at hx2
        rcases List.mem_map.mp hx2 with ⟨e, he, hex⟩
        rcases dictInsert_mem_key acc f.path (LuaParser.mk content) e he with hk | hk
        · right
          refine ⟨f, List.mem_cons_self _ _, by rw [← hex, hk], by rw [hf]; simp⟩
        · left
          rw [← hex]
          exact hk
    · exact Or.inr ⟨g, List.mem_cons_of_mem _ hg, hgx⟩

/-- Every diagnostic of the per-file inner loop names a dictionary path. -/
theorem checkFilesFor_paths (f : String) :
    ∀ (parsers : List (String × LuaParser)) (l : List Diag),
      checkFilesFor f parsers = .ok l → ∀ d ∈ l, d.1 ∈ parsers.map Prod.fst := by
  intro parsers
  induction parsers with
  | nil =>
    intro l h d hd
    rw [checkFilesFor] at h
    injection h with h
    rw [← h] at hd
    simp at hd
  | cons pp rest ih =>
    intro l h d hd
    rw [checkFilesFor] at h
    split at h
    · exact Except.noConfusion h
    · next errs heq =>
      split at h
      · exact Except.noConfusion h
      · next more heq2 =>
        injection h with h
        rw [← h] at hd
        rcases List.mem_append.mp hd with hd | hd
        · rcases List.mem_map.mp hd with ⟨em, _, hde⟩
          rw [← hde]
          simp
        · exact List.mem_cons_of_mem _ (ih more heq2 d hd)

/-- Every diagnostic of the main checking phase names a dictionary path. -/
theorem checkAllFuncs_paths (parsers : List (String × LuaParser)) :
    ∀ (fs : List String) (l : List Diag),
      checkAllFuncs parsers fs = .ok l → ∀ d ∈ l, d.1 ∈ parsers.map Prod.fst := by
  intro fs
  induction fs with
  | nil =>
    intro l h d hd
    rw [checkAllFuncs] at h
    injection h with h
    rw [← h] at hd
    simp at hd
  | cons f rest ih =>
    intro l h d hd
    rw [checkAllFuncs] at h
    split at h
    · exact Except.noConfusion h
    · next d1 heq =>
      split at h
      · exact Except.noConfusion h
      · next d2 heq2 =>
        injection h with h
        rw [← h] at hd
        rcases List.mem_append.mp hd with hd | hd
        · exact checkFilesFor_paths f parsers d1 heq d hd
        · exact ih d2 heq2 d hd

/-- C5 (amended): an unreadable or undecodable file is silently skipped —
no diagnostic is recorded for it (`c5_counterexample` refutes the claimed
line-0 diagnostic). Its functions are absent from the index and its parser
is never built (the index and the parser dictionary depend only on the
readable files), every other file is still processed, and every diagnostic
of the output either concerns the entry file or names a readable file of
the corpus. -/
theorem c5_unreadable_silently_skipped (files : List LuaFile) :
    buildAllFunctions files = buildAllFunctions (files.filter (fun g => g.text.isSome)) ∧
    buildParsers files = buildParsers (files.filter (fun g => g.text.isSome)) ∧
    ∀ l, check_on_load_globals files = .ok l →
      ∀ d ∈ l, d.1 = "control.lua" ∨ ∃ g ∈ files, g.path = d.1 ∧ g.text ≠ none := by
  refine ⟨?_, ?_, ?_⟩
  · unfold buildAllFunctions
    exact foldl_skip_unreadable _ (fun acc f hf => by simp only [hf]) files []
  · unfold buildParsers
    exact foldl_skip_unreadable _ (fun acc f hf => by simp only [hf]) files []
  · intro l h d hd
    unfold check_on_load_globals at h
    cases hf : files.find? (fun f => baseName f.path == "control.lua") with
    | none =>
      rw [hf] at h
      injection h with h
      rw [← h] at hd
      rcases List.mem_singleton.mp hd with rfl
      exact Or.inl rfl
    | some control =>
      rw [hf] at h
      dsimp only at h
      cases ht : control.text with
      | none =>
        rw [ht] at h
        injection h with h
        rw [← h] at hd
        rcases List.mem_singleton.mp hd with rfl
        exact Or.inl rfl
      | some content =>
        rw [ht] at h
        dsimp only at h
        cases ho : (LuaParser.mk content).find_on_load_functions with
        | none =>
          rw [ho] at h
          injection h with h
          rw [← h] at hd
          rcases List.mem_singleton.mp hd with rfl
          exact Or.inl rfl
        | some seeds =>
          rw [ho] at h
          cases seeds with
          | nil =>
            dsimp only at h
            injection h with h
            rw [← h] at hd
            rcases List.mem_singleton.mp hd with rfl
            exact Or.inl rfl
          | cons s0 srest =>
            dsimp only at h
            cases htr : trace_call_chain (s0 :: srest) files with
            | none =>
              rw [htr] at h
              exact Except.noConfusion h
            | some visited =>
              rw [htr] at h
              have hmem := checkAllFuncs_paths (buildParsers files) visited l h d hd
              have := buildParsers_keys_from_files files [] d.1 hmem
              rcases this with hx | hx
              · simp at hx
              · exact Or.inr hx

/-- C5 witness: a concrete diagnostic of `corpusDupName` names a readable
corpus file. -/
theorem c5_witness :
    ("a.lua", 2, mkErrMsg "f" "game").1 = "control.lua" ∨
    ∃ g ∈ corpusDupName, g.path = ("a.lua", 2, mkErrMsg "f" "game").1 ∧ g.text ≠ none :=
  (c5_unreadable_silently_skipped corpusDupName).2.2
    [("a.lua", 2, mkErrMsg "f" "game"), ("b.lua", 2, mkErrMsg "f" "rendering")] rfl
    ("a.lua", 2, mkErrMsg "f" "game") (by simp)

/-- Second component of a conditional pair with empty second components. -/
theorem ite_pair_snd {c : Prop} [Decidable c] (x y : EHState) :
    (if c then (x, ([] : List (Nat × String))) else (y, [])).2 = [] := by
  split <;> rfl

/-- Processing a line with an active incoming state, or a line that triggers
the nested-registration entry, emits no diagnostics. -/
theorem processLine_suppressed (fname : String) (startPos ln : Nat) (line : List Char)
    (st : EHState) (h : st.active = true ∨ ehEnter line = true) :
    (processLine fname startPos ln line st).2 = [] := by
  unfold processLine
  rcases hE : ehEnter line with _ | _
  · rcases h with h | h
    · simp only [hE, Bool.false_eq_true, if_false, h, if_true]
      exact ite_pair_snd _ _
    · exact absurd h (by simp [hE])
  · simp only [hE, if_true]
    exact ite_pair_snd _ _

/-- C6: state machine of the per-line checker. Entering: a line containing
the nested-registration pattern makes the processing independent of the
incoming state (the state is reset to active with depth 0) and emits
nothing. Suppression: an active incoming state emits nothing. Exit: an
active state on a non-entry line whose updated depth is zero, strictly past
the start line, deactivates. Together these give the claimed
`Normal`/`InNestedClosure` behaviour, diagnostics being emitted only in
`Normal`. -/
theorem c6_nested_closure_state_machine (fname : String) (startPos ln : Nat)
    (line : List Char) (st : EHState) :
    (ehEnter line = true →
      processLine fname startPos ln line st = processLine fname startPos ln line (EHState.mk true 0) ∧
      (processLine fname startPos ln line st).2 = []) ∧
    (st.active = true → (processLine fname startPos ln line st).2 = []) ∧
    (st.active = true → ehEnter line = false →
      st.depth + (countWord kwFunction line : Int) - (countWord kwEnd line : Int) = 0 →
      startPos < ln →
      (processLine fname startPos ln line st).1.active = false) := by
  refine ⟨fun h => ⟨by simp only [processLine, h, if_true],
      processLine_suppressed _ _ _ _ _ (Or.inr h)⟩,
    fun h => processLine_suppressed _ _ _ _ _ (Or.inl h), fun h h2 h3 h4 => ?_⟩
  simp only [processLine, h2, Bool.false_eq_true, if_false, h, if_true, h3]
  simp [h4]

/-- C6 witness: concrete instances of the three conjuncts — the
entry line `ehLine` resets the state and emits nothing from an arbitrary
incoming state, an active state emits nothing, and a line closing the
nested depth past the start line deactivates. -/
theorem c6_witness :
    (processLine "f" 0 2 ehLine (EHState.mk false 3) =
      processLine "f" 0 2 ehLine (EHState.mk true 0) ∧
     (processLine "f" 0 2 ehLine (EHState.mk false 3)).2 = []) ∧
    (processLine "f" 0 2 "  foo()".data (EHState.mk true 5)).2 = [] ∧
    (processLine "f" 0 2 "end end".data (EHState.mk true 2)).1.active = false := by
  refine ⟨(c6_nested_closure_state_machine "f" 0 2 ehLine (EHState.mk false 3)).1 (by decide),
    (c6_nested_closure_state_machine "f" 0 2 "  foo()".data (EHState.mk true 5)).2.1 rfl,
    (c6_nested_closure_state_machine "f" 0 2 "end end".data (EHState.mk true 2)).2.2 rfl
      (by decide) (by decide) (by decide)⟩

/-- C9 counterexample: on the line `"\\"` (double quote, two backslashes,
double quote) the closing quote is preceded by a backslash that is itself
escaped; the unescaped-backslash rule of the spec says the quote toggles (the
position after the line is outside any string), but the code suppresses any
quote directly preceded by a backslash and still reports in-string. -/
theorem c9_counterexample :
    isInString [dqChar, bsChar, bsChar, dqChar] 4 = true ∧
    isInStringSpec [dqChar, bsChar, bsChar, dqChar] 4 = false :=
  ⟨rfl, rfl⟩

/-- A successful checking loop produces exactly the pure per-line scan. -/
theorem checkLoop_ok_emits (p : LuaParser) (fname : String) (startPos : Nat) :
    ∀ (lns : List Nat) (st : EHState) (l : List (Nat × String)),
      checkLoop p fname startPos lns st = .ok l → l = emitsAt p fname startPos lns st := by
  intro lns
  induction lns with
  | nil =>
    intro st l h
    rw [checkLoop] at h
    injection h with h
    rw [← h, emitsAt]
  | cons ln rest ih =>
    intro st l h
    rw [checkLoop] at h
    simp only [] at h
    split at h
    · rw [emitsAt]
      split at h
      · next hc =>
        rw [if_pos hc]
        exact ih st l h
      · next hc =>
        rw [if_neg hc]
        split at h
        · next l2 heq =>
          injection h with h
          rw [← h, ih _ l2 heq]
        · exact Except.noConfusion h
    · exact Except.noConfusion h

/-- The scan splits over concatenated index lists, threading the state. -/
theorem emitsAt_append (p : LuaParser) (fname : String) (startPos : Nat) :
    ∀ (l1 l2 : List Nat) (st : EHState),
      emitsAt p fname startPos (l1 ++ l2) st =
        emitsAt p fname startPos l1 st ++
          emitsAt p fname startPos l2 (stateAfter p fname startPos l1 st) := by
  intro l1
  induction l1 with
  | nil => intro l2 st; rw [stateAfter]; rfl
  | cons ln t ih =>
    intro l2 st
    rw [List.cons_append, emitsAt, emitsAt, stateAfter]
    by_cases hc : p.isInComment ln 0 = true
    · rw [if_pos hc, if_pos hc, if_pos hc, ih]
    · rw [if_neg hc, if_neg hc, if_neg hc]
      dsimp only
      rw [ih, List.append_assoc]

/-- Lines outside the scanned index list contribute no diagnostics. -/
theorem emitsAt_count_notmem (p : LuaParser) (fname : String) (startPos : Nat) :
    ∀ (lns : List Nat) (st : EHState) (n : Nat) (msg : String), n ∉ lns →
      (emitsAt p fname startPos lns st).count (n + 1, msg) = 0 := by
  intro lns
  induction lns with
  | nil => intro st n msg _; rfl
  | cons ln t ih =>
    intro st n msg hn
    rw [emitsAt]
    have hne : n ∉ t := fun hmem => hn (List.mem_cons_of_mem _ hmem)
    have hlnn : ln ≠ n := fun he => hn (he ▸ List.mem_cons_self _ _)
    by_cases hc : p.isInComment ln 0 = true
    · rw [if_pos hc]
      exact ih st n msg hne
    · rw [if_neg hc, List.count_append, ih _ n msg hne, Nat.add_zero]
      rw [List.count_eq_zero]
      intro hmem
      have := processLine_fst fname startPos ln (p.lines.getD ln []) st _ hmem
      simp at this
      omega

/-- Count in a constant list. -/
theorem count_const {α : Type} [BEq α] [LawfulBEq α] [DecidableEq α] (y x : α) :
    ∀ l : List α, (∀ e ∈ l, e = y) → l.count x = if x = y then l.length else 0 := by
  intro l
  induction l with
  | nil => intro _; simp
  | cons a t ih =>
    intro h
    have ha : a = y := h a (List.mem_cons_self _ _)
    have ht : ∀ e ∈ t, e = y := fun e he => h e (List.mem_cons_of_mem _ he)
    rw [List.count_cons, ih ht]
    by_cases hx : x = y
    · subst hx
      simp [ha]
    · have hne : ¬(a == x) = true := by
        intro hax
        exact hx (by rw [← ha]; exact (eq_of_beq hax).symm)
      simp [hx, hne]

/-- Length of a conditional filterMap equals the length of the
corresponding filter. -/
theorem filterMap_if_length {α β : Type} (c : α → Bool) (g : α → β) :
    ∀ l : List α,
      (l.filterMap (fun x => if c x then none else some (g x))).length =
        (l.filter (fun x => !c x)).length := by
  intro l
  induction l with
  | nil => rfl
  | cons a t ih =>
    rw [List.filterMap_cons, List.filter_cons]
    by_cases hc : c a = true
    · simp only [hc, Bool.not_true, Bool.false_eq_true, if_false, if_true]
      exact ih
    · have hc2 : c a = false := by
        cases hcc : c a with
        | false => rfl
        | true => exact absurd hcc hc
      simp only [hc2, Bool.not_false, Bool.false_eq_true, if_false, if_true,
        List.length_cons, ih]


/-- A list split at a distinguished character that occurs in neither prefix
is unique. -/
theorem splitAtChar (q : Char) :
    ∀ (a a' b b' : List Char), q ∉ a → q ∉ a' → a ++ q :: b = a' ++ q :: b' →
      a = a' ∧ b = b' := by
  intro a
  induction a with
  | nil =>
    intro a' b b' _ hqa' heq
    cases a' with
    | nil =>
      simp only [List.nil_append] at heq
      injection heq with _ h2
      exact ⟨rfl, h2⟩
    | cons c t =>
      simp only [List.nil_append, List.cons_append] at heq
      injection heq with h1 _
      exact absurd (h1 ▸ List.mem_cons_self c t) hqa'
  | cons c t ih =>
    intro a' b b' hqa hqa' heq
    cases a' with
    | nil =>
      simp only [List.cons_append, List.nil_append] at heq
      injection heq with h1 _
      exact absurd (h1 ▸ List.mem_cons_self c t) hqa
    | cons c' t' =>
      simp only [List.cons_append] at heq
      injection heq with h1 h2
      have hqt : q ∉ t := fun hm => hqa (List.mem_cons_of_mem _ hm)
      have hqt' : q ∉ t' := fun hm => hqa' (List.mem_cons_of_mem _ hm)
      obtain ⟨he1, he2⟩ := ih t' b b' hqt hqt' h2
      exact ⟨by rw [h1, he1], he2⟩

/-- A quote-free name does not contain the quote character. -/
theorem quoteFree_notmem (s : String) (h : quoteFree s = true) : sqChar ∉ s.data := by
  intro hm
  unfold quoteFree at h
  have := List.all_eq_true.mp h sqChar hm
  simp at this

/-- Character-level decomposition of a diagnostic message. -/
theorem mkErrMsg_data (fname g : String) :
    (mkErrMsg fname g).data =
      "Function ".data ++ sqChar :: (fname.data ++ sqChar ::
        (" accesses forbidden global ".data ++ sqChar :: (g.data ++ sqChar ::
          " during on_load".data))) := by
  unfold mkErrMsg quoteStr
  simp only [String.data_append]
  simp

/-- Diagnostic messages determine the function name and the forbidden root,
provided neither contains a quote character. -/
theorem mkErrMsg_inj (f1 f2 g1 g2 : String)
    (hf1 : quoteFree f1 = true) (hf2 : quoteFree f2 = true)
    (hg1 : quoteFree g1 = true) (hg2 : quoteFree g2 = true)
    (h : mkErrMsg f1 g1 = mkErrMsg f2 g2) : f1 = f2 ∧ g1 = g2 := by
  have hd : (mkErrMsg f1 g1).data = (mkErrMsg f2 g2).data := by rw [h]
  rw [mkErrMsg_data, mkErrMsg_data] at hd
  have hd2 := List.append_cancel_left hd
  injection hd2 with _ hd3
  obtain ⟨he1, he2⟩ := splitAtChar sqChar f1.data f2.data _ _
    (quoteFree_notmem f1 hf1) (quoteFree_notmem f2 hf2) hd3
  have hd4 := List.append_cancel_left he2
  injection hd4 with _ hd5
  obtain ⟨he3, _⟩ := splitAtChar sqChar g1.data g2.data _ _
    (quoteFree_notmem g1 hg1) (quoteFree_notmem g2 hg2) hd5
  exact ⟨String.ext he1, String.ext he3⟩

/-- All diagnostics of one root on one line are the same record. -/
theorem lineErrorsFor_all (fname : String) (ln : Nat) (line : List Char) (g : String) :
    ∀ e ∈ lineErrorsFor fname ln line g, e = (ln + 1, mkErrMsg fname g) := by
  intro e he
  unfold lineErrorsFor at he
  rcases List.mem_filterMap.mp he with ⟨pos, _, hpos⟩
  by_cases hs : isInString line pos = true
  · rw [if_pos hs] at hpos
    exact Option.noConfusion hpos
  · rw [if_neg hs] at hpos
    injection hpos with h
    exact h.symm

/-- One diagnostic per unsuppressed match of one root on one line. -/
theorem lineErrorsFor_length (fname : String) (ln : Nat) (line : List Char) (g : String) :
    (lineErrorsFor fname ln line g).length = accessCount g line := by
  unfold lineErrorsFor accessCount
  exact filterMap_if_length _ _ _

/-- On one line, the count of a given root diagnostic equals the number of
its qualifying matches. -/
theorem lineErrors_count (fname : String) (ln : Nat) (line : List Char) (g : String)
    (hqf : quoteFree fname = true) (hg : g ∈ forbiddenGlobals) :
    (lineErrors fname ln line).count (ln + 1, mkErrMsg fname g) = accessCount g line := by
  have hcount : ∀ g', quoteFree g' = true →
      (lineErrorsFor fname ln line g').count (ln + 1, mkErrMsg fname g) =
        if g = g' then accessCount g' line else 0 := by
    intro g' hqg'
    have hqg : quoteFree g = true := by
      have hgm : g ∈ forbiddenGlobals := hg
      simp only [forbiddenGlobals, List.mem_cons, List.not_mem_nil, or_false] at hgm
      rcases hgm with rfl | rfl <;> decide
    rw [count_const (ln + 1, mkErrMsg fname g') (ln + 1, mkErrMsg fname g)
      (lineErrorsFor fname ln line g') (lineErrorsFor_all fname ln line g')]
    by_cases he : g = g'
    · subst he
      rw [if_pos rfl, if_pos rfl, lineErrorsFor_length]
    · rw [if_neg he, if_neg ?_]
      intro hpair
      injection hpair with _ hmsg
      exact he (mkErrMsg_inj fname fname g g' hqf hqf hqg hqg' hmsg).2
  simp only [lineErrors, forbiddenGlobals, List.flatMap_cons, List.flatMap_nil,
    List.append_nil, List.count_append]
  rw [hcount "game" (by decide), hcount "rendering" (by decide)]
  simp only [forbiddenGlobals, List.mem_cons, List.not_mem_nil, or_false] at hg
  rcases hg with rfl | rfl
  · rw [if_pos rfl, if_neg (by decide)]
    omega
  · rw [if_neg (by decide), if_pos rfl]
    omega

/-- Per-line diagnostic count: zero when the line is suppressed by the
nested-registration state, and otherwise the number of qualifying
matches. -/
theorem processLine_count (fname g : String) (startPos n : Nat) (line : List Char)
    (st : EHState) (hqf : quoteFree fname = true) (hg : g ∈ forbiddenGlobals) :
    (processLine fname startPos n line st).2.count (n + 1, mkErrMsg fname g) =
      if (if ehEnter line then true else st.active) = true then 0
      else accessCount g line := by
  by_cases hE : ehEnter line = true
  · rw [processLine_suppressed fname startPos n line st (Or.inr hE)]
    rw [hE]
    simp
  · cases hA : st.active with
    | true =>
      rw [processLine_suppressed fname startPos n line st (Or.inl hA)]
      have hEf : ehEnter line = false := by
        cases hee : ehEnter line with
        | false => rfl
        | true => exact absurd hee hE
      rw [hEf]
      simp [hA]
    | false =>
      have hEf : ehEnter line = false := by
        cases hee : ehEnter line with
        | false => rfl
        | true => exact absurd hee hE
      have hpl : (processLine fname startPos n line st).2 = lineErrors fname n line := by
        unfold processLine
        rw [hEf]
        simp only [Bool.false_eq_true, if_false, hA]
      rw [hpl, lineErrors_count fname n line g hqf hg, hEf]
      simp [hA]

/-- Per-check diagnostic count: for every line and forbidden root, a
successful check of one name against one parser contains exactly
perLineCount copies of the corresponding diagnostic. -/
theorem check_forbidden_globals_count (p : LuaParser) (fname g : String) (n : Nat)
    (errs : List (Nat × String)) (hok : p.check_forbidden_globals fname = .ok errs)
    (hqf : quoteFree fname = true) (hg : g ∈ forbiddenGlobals) :
    errs.count (n + 1, mkErrMsg fname g) = perLineCount p fname g n := by
  unfold LuaParser.check_forbidden_globals at hok
  unfold perLineCount
  cases hsp : p.findStartPos fname with
  | none =>
    rw [hsp] at hok
    injection hok with h
    rw [← h]
    rfl
  | some s =>
    rw [hsp] at hok
    dsimp only at hok ⊢
    have hemits := checkLoop_ok_emits p fname s _ _ errs hok
    by_cases hin : s ≤ n ∧ n ≤ p.findFunctionEnd s
    · have hrange : List.range' s (p.findFunctionEnd s + 1 - s) =
          List.range' s (n - s) ++ n :: List.range' (n + 1) (p.findFunctionEnd s - n) := by
        have h1 : p.findFunctionEnd s + 1 - s = (p.findFunctionEnd s - n) + 1 + (n - s) := by
          omega
        rw [h1, ← List.range'_append_1 s (n - s) ((p.findFunctionEnd s - n) + 1)]
        have h2 : s + (n - s) = n := by omega
        rw [h2, List.range'_succ]
      rw [hrange] at hemits
      rw [hemits, emitsAt_append, List.count_append]
      have hc1 : (emitsAt p fname s (List.range' s (n - s)) (EHState.mk false 0)).count
          (n + 1, mkErrMsg fname g) = 0 := by
        apply emitsAt_count_notmem
        intro hmem
        have := List.mem_range'_1.mp hmem
        omega
      rw [hc1, Nat.zero_add]
      rw [emitsAt]
      by_cases hcom : p.isInComment n 0 = true
      · rw [if_pos hcom]
        have hc2 : (emitsAt p fname s (List.range' (n + 1) (p.findFunctionEnd s - n))
            (stateAfter p fname s (List.range' s (n - s)) (EHState.mk false 0))).count
            (n + 1, mkErrMsg fname g) = 0 := by
          apply emitsAt_count_notmem
          intro hmem
          have := List.mem_range'_1.mp hmem
          omega
        rw [hc2]
        rw [if_neg]
        intro hco
        rw [hcom] at hco
        simp at hco
      · rw [if_neg hcom]
        rw [List.count_append]
        have hc2 : (emitsAt p fname s (List.range' (n + 1) (p.findFunctionEnd s - n))
            (processLine fname s n (p.lines.getD n [])
              (stateAfter p fname s (List.range' s (n - s)) (EHState.mk false 0))).1).count
            (n + 1, mkErrMsg fname g) = 0 := by
          apply emitsAt_count_notmem
          intro hmem
          have := List.mem_range'_1.mp hmem
          omega
        rw [hc2, Nat.add_zero]
        have hstate : stateAfter p fname s (List.range' s (n - s)) (EHState.mk false 0) =
            stateAtLine p fname s n := rfl
        rw [hstate, processLine_count fname g s n (p.lines.getD n [])
          (stateAtLine p fname s n) hqf hg]
        unfold suppressedAt
        by_cases hsup :
            (if ehEnter (p.lines.getD n []) then true
              else (stateAtLine p fname s n).active) = true
        · rw [if_pos hsup]
          rw [if_neg]
          simp only [hsup, Bool.not_true, Bool.and_false, Bool.false_eq_true]
          simp
        · rw [if_neg hsup]
          rw [if_pos]
          have hsup2 : (if ehEnter (p.lines.getD n []) then true
              else (stateAtLine p fname s n).active) = false := by
            cases hb : (if ehEnter (p.lines.getD n []) then true
                else (stateAtLine p fname s n).active) with
            | false => rfl
            | true => exact absurd hb hsup
          simp only [hsup2, Bool.not_false, Bool.and_true, hcom]
          simp [hin.1, hin.2, hcom]
    · have hnot : n ∉ List.range' s (p.findFunctionEnd s + 1 - s) := by
        intro hmem
        have := List.mem_range'_1.mp hmem
        omega
      rw [hemits, emitsAt_count_notmem p fname s _ _ n _ hnot]
      rw [if_neg]
      intro hco
      have h1 := hco
      simp only [Bool.and_eq_true, decide_eq_true_eq] at h1
      exact hin ⟨h1.1.1.1, h1.1.1.2⟩

/-- Call-pattern names contain no quote character. -/
theorem shape_quoteFree (name : String) (h : CallNameShape name) : quoteFree name = true := by
  unfold quoteFree
  rw [List.all_eq_true]
  intro c hc
  rcases h with ⟨_, hw⟩ | ⟨w, w2, _, _, hw, hw2, hdata⟩
  · have := hw c hc
    have hq : isWordChar sqChar = false := by decide
    simp only [bne_iff_ne, ne_eq]
    intro he
    rw [he] at this
    rw [this] at hq
    exact Bool.noConfusion hq
  · rw [hdata] at hc
    simp only [bne_iff_ne, ne_eq]
    intro he
    subst he
    rcases List.mem_append.mp hc with hm | hm
    · have := hw _ hm
      have hq : isWordChar sqChar = false := by decide
      rw [this] at hq
      exact Bool.noConfusion hq
    · rcases List.mem_cons.mp hm with he2 | hm2
      · exact absurd he2 (by decide)
      · have := hw2 _ hm2
        have hq : isWordChar sqChar = false := by decide
        rw [this] at hq
        exact Bool.noConfusion hq

/-- Extracted callee names contain no quote character. -/
theorem find_function_calls_quoteFree (p : LuaParser) (fname : String) :
    ∀ name ∈ p.find_function_calls fname, quoteFree name = true := by
  intro name h
  unfold LuaParser.find_function_calls at h
  cases hsp : p.findStartPos fname with
  | none => rw [hsp] at h; simp at h
  | some s =>
    rw [hsp] at h
    have hmem := (List.mem_filter.mp h).1
    obtain ⟨i, hshape, _⟩ := callFinditerAux_sound _ _ name hmem
    exact shape_quoteFree name hshape

/-- Callees found through the index contain no quote character. -/
theorem callsOf_quoteFree (allFns : List (String × String)) (parsers : List (String × LuaParser))
    (f : String) : ∀ name ∈ callsOf allFns parsers f, quoteFree name = true := by
  intro name h
  unfold callsOf at h
  split at h
  · split at h
    · exact find_function_calls_quoteFree _ _ name h
    · simp at h
  · simp at h

/-- The worklist loop only ever visits quote-free names when seeded with
quote-free names. -/
theorem traceAuxF_quoteFree (allFns : List (String × String)) (parsers : List (String × LuaParser)) :
    ∀ (fuel : Nat) (visited queue res : List String),
      traceAuxF allFns parsers fuel visited queue = some res →
      (∀ x ∈ visited, quoteFree x = true) → (∀ x ∈ queue, quoteFree x = true) →
      ∀ x ∈ res, quoteFree x = true := by
  intro fuel
  induction fuel with
  | zero =>
    intro visited queue res h hv hq
    cases queue with
    | nil =>
      rw [traceAuxF] at h
      injection h with h
      rw [← h]
      exact hv
    | cons f rest => exact absurd h (by rw [traceAuxF]; simp)
  | succ fuel ih =>
    intro visited queue res h hv hq
    cases queue with
    | nil =>
      rw [traceAuxF] at h
      injection h with h
      rw [← h]
      exact hv
    | cons f rest =>
      rw [traceAuxF] at h
      split at h
      · exact ih visited rest res h hv (fun x hx => hq x (List.mem_cons_of_mem _ hx))
      · apply ih _ _ res h
        · intro x hx
          rcases List.mem_append.mp hx with hx | hx
          · exact hv x hx
          · rw [List.mem_singleton.mp hx]
            exact hq f (List.mem_cons_self _ _)
        · intro x hx
          rcases List.mem_append.mp hx with hx | hx
          · exact hq x (List.mem_cons_of_mem _ hx)
          · exact callsOf_quoteFree allFns parsers f x hx

/-- Every line diagnostic is the standard message of some forbidden
root. -/
theorem lineErrors_msg (fname : String) (ln : Nat) (line : List Char) :
    ∀ e ∈ lineErrors fname ln line, ∃ g ∈ forbiddenGlobals, e.2 = mkErrMsg fname g := by
  intro e he
  unfold lineErrors at he
  rcases List.mem_flatMap.mp he with ⟨g, hgmem, hg⟩
  have := lineErrorsFor_all fname ln line g e hg
  exact ⟨g, hgmem, by rw [this]⟩

/-- Every emitted diagnostic is the standard message of some forbidden
root. -/
theorem processLine_msg (fname : String) (startPos ln : Nat) (line : List Char) (st : EHState) :
    ∀ e ∈ (processLine fname startPos ln line st).2,
      ∃ g ∈ forbiddenGlobals, e.2 = mkErrMsg fname g := by
  intro e he
  simp only [processLine] at he
  repeat' split at he
  all_goals first
  | exact lineErrors_msg fname ln line e he
  | simp at he

/-- Every scan diagnostic is the standard message of some forbidden
root. -/
theorem checkLoop_msg (p : LuaParser) (fname : String) (startPos : Nat) :
    ∀ (lns : List Nat) (st : EHState) (l : List (Nat × String)),
      checkLoop p fname startPos lns st = .ok l →
      ∀ e ∈ l, ∃ g ∈ forbiddenGlobals, e.2 = mkErrMsg fname g := by
  intro lns
  induction lns with
  | nil =>
    intro st l h e he
    rw [checkLoop] at h
    injection h with h
    rw [← h] at he
    simp at he
  | cons ln rest ih =>
    intro st l h e he
    rw [checkLoop] at h
    simp only [] at h
    split at h
    · split at h
      · exact ih st l h e he
      · split at h
        · next l2 heq =>
          injection h with h
          rw [← h] at he
          rcases List.mem_append.mp he with he | he
          · exact processLine_msg fname startPos ln (p.lines.getD ln []) st e he
          · exact ih _ l2 heq e he
        · exact Except.noConfusion h
    · exact Except.noConfusion h

/-- Every per-check diagnostic is the standard message of the checked name
and some forbidden root. -/
theorem check_forbidden_globals_msg (p : LuaParser) (fname : String)
    (errs : List (Nat × String)) (h : p.check_forbidden_globals fname = .ok errs) :
    ∀ e ∈ errs, ∃ g ∈ forbiddenGlobals, e.2 = mkErrMsg fname g := by
  unfold LuaParser.check_forbidden_globals at h
  split at h
  · injection h with h
    rw [← h]
    simp
  · exact checkLoop_msg p fname _ _ _ _ h

/-- Tagging diagnostics with their file path preserves counts at that
path. -/
theorem map_tag_count (path : String) (errs : List (Nat × String)) (k : Nat) (msg : String) :
    (errs.map (fun em => (path, em.1, em.2))).count (path, k, msg) = errs.count (k, msg) := by
  induction errs with
  | nil => rfl
  | cons em t ih =>
    rw [List.map_cons, List.count_cons, List.count_cons, ih]
    congr 1
    simp [Prod.ext_iff]

/-- Diagnostics tagged with a different path never count at this path. -/
theorem map_tag_count_ne (path c : String) (errs : List (Nat × String)) (k : Nat) (msg : String)
    (hne : c ≠ path) : (errs.map (fun em => (c, em.1, em.2))).count (path, k, msg) = 0 := by
  rw [List.count_eq_zero]
  intro hmem
  rcases List.mem_map.mp hmem with ⟨em, _, heq⟩
  injection heq with h1 _
  exact hne h1

/-- Every diagnostic of the per-file loop carries the standard message of
the checked name. -/
theorem checkFilesFor_msg (f : String) :
    ∀ (parsers : List (String × LuaParser)) (l : List Diag),
      checkFilesFor f parsers = .ok l →
      ∀ d ∈ l, ∃ g ∈ forbiddenGlobals, d.2.2 = mkErrMsg f g := by
  intro parsers
  induction parsers with
  | nil =>
    intro l h d hd
    rw [checkFilesFor] at h
    injection h with h
    rw [← h] at hd
    simp at hd
  | cons pp rest ih =>
    intro l h d hd
    rw [checkFilesFor] at h
    split at h
    · exact Except.noConfusion h
    · next errs heq =>
      split at h
      · exact Except.noConfusion h
      · next more heq2 =>
        injection h with h
        rw [← h] at hd
        rcases List.mem_append.mp hd with hd | hd
        · rcases List.mem_map.mp hd with ⟨em, hem, hde⟩
          obtain ⟨g, hgmem, hgmsg⟩ := check_forbidden_globals_msg pp.2 f errs heq em hem
          refine ⟨g, hgmem, ?_⟩
          rw [← hde]
          exact hgmsg
        · exact ih more heq2 d hd

/-- Count of a diagnostic across the per-file loop: with distinct parser
paths, only the file at the named path contributes, namely its own
per-check count. -/
theorem checkFilesFor_count (f path : String) (parser : LuaParser) (k : Nat) (msg : String) :
    ∀ (parsers : List (String × LuaParser)) (l : List Diag),
      checkFilesFor f parsers = .ok l → (parsers.map Prod.fst).Nodup →
      findVal parsers path = some parser →
      ∃ errs, parser.check_forbidden_globals f = .ok errs ∧
        l.count (path, k, msg) = errs.count (k, msg) := by
  intro parsers
  induction parsers with
  | nil =>
    intro l h hnd hfv
    exact absurd hfv (by rw [findVal]; simp)
  | cons pp rest ih =>
    intro l h hnd hfv
    rw [checkFilesFor] at h
    split at h
    · exact Except.noConfusion h
    · next errs heq =>
      split at h
      · exact Except.noConfusion h
      · next more heq2 =>
        injection h with h
        rw [findVal] at hfv
        by_cases hkey : (pp.1 == path) = true
        · rw [if_pos hkey] at hfv
          injection hfv with hfv
          have hpath : pp.1 = path := eq_of_beq hkey
          refine ⟨errs, by rw [← hfv]; exact heq, ?_⟩
          rw [← h, List.count_append]
          have hmap : (errs.map (fun em => (pp.1, em.1, em.2))).count (path, k, msg) =
              errs.count (k, msg) := by
            rw [hpath]
            exact map_tag_count path errs k msg
          rw [hmap]
          have hmore : more.count (path, k, msg) = 0 := by
            rw [List.count_eq_zero]
            intro hmem
            have := checkFilesFor_paths f rest more heq2 _ hmem
            rw [List.map_cons] at hnd
            have hnotin := (List.nodup_cons.mp hnd).1
            rw [hpath] at hnotin
            exact hnotin this
          rw [hmore]
          omega
        · rw [if_neg hkey] at hfv
          have hpne : pp.1 ≠ path := fun he => hkey (beq_iff_eq.mpr he)
          obtain ⟨errs2, hok2, hcnt2⟩ := ih more heq2 (List.nodup_cons.mp
            (by rw [List.map_cons] at hnd; exact hnd)).2 hfv
          refine ⟨errs2, hok2, ?_⟩
          rw [← h, List.count_append, map_tag_count_ne path pp.1 errs k msg hpne,
            Nat.zero_add, hcnt2]

/-- Functions other than the named one contribute no diagnostics with its
message. -/
theorem checkAllFuncs_count_zero (parsers : List (String × LuaParser)) (f g path : String)
    (n : Nat) (hqf : quoteFree f = true) (hg : g ∈ forbiddenGlobals) :
    ∀ (fs : List String) (l : List Diag), checkAllFuncs parsers fs = .ok l →
      (∀ x ∈ fs, quoteFree x = true) → f ∉ fs →
      l.count (path, n + 1, mkErrMsg f g) = 0 := by
  intro fs
  induction fs with
  | nil =>
    intro l h _ _
    rw [checkAllFuncs] at h
    injection h with h
    rw [← h]
    rfl
  | cons f2 rest ih =>
    intro l h hall hnot
    rw [checkAllFuncs] at h
    split at h
    · exact Except.noConfusion h
    · next d1 heq =>
      split at h
      · exact Except.noConfusion h
      · next d2 heq2 =>
        injection h with h
        rw [← h, List.count_append]
        have h1 : d1.count (path, n + 1, mkErrMsg f g) = 0 := by
          rw [List.count_eq_zero]
          intro hmem
          obtain ⟨g2, hg2mem, hg2msg⟩ := checkFilesFor_msg f2 parsers d1 heq _ hmem
          simp only at hg2msg
          have hqf2 : quoteFree f2 = true := hall f2 (List.mem_cons_self _ _)
          have hqg : quoteFree g = true := by
            simp only [forbiddenGlobals, List.mem_cons, List.not_mem_nil, or_false] at hg
            rcases hg with rfl | rfl <;> decide
          have hqg2 : quoteFree g2 = true := by
            simp only [forbiddenGlobals, List.mem_cons, List.not_mem_nil, or_false] at hg2mem
            rcases hg2mem with rfl | rfl <;> decide
          have := (mkErrMsg_inj f f2 g g2 hqf hqf2 hqg hqg2 hg2msg).1
          exact hnot (this ▸ List.mem_cons_self _ _)
        have h2 : d2.count (path, n + 1, mkErrMsg f g) = 0 :=
          ih d2 heq2 (fun x hx => hall x (List.mem_cons_of_mem _ hx))
            (fun hm => hnot (List.mem_cons_of_mem _ hm))
        rw [h1, h2]

/-- Count of a diagnostic across the whole checking phase: with distinct
parser paths and quote-free, duplicate-free reachable names, the total
count of one function diagnostic at one path equals the count from that
single check. -/
theorem checkAllFuncs_count (parsers : List (String × LuaParser)) (path : String)
    (parser : LuaParser) (f g : String) (n : Nat)
    (hpn : (parsers.map Prod.fst).Nodup) (hpv : findVal parsers path = some parser)
    (hg : g ∈ forbiddenGlobals) (hqf : quoteFree f = true) :
    ∀ (fs : List String) (l : List Diag), checkAllFuncs parsers fs = .ok l →
      fs.Nodup → (∀ x ∈ fs, quoteFree x = true) → f ∈ fs →
      ∃ errs, parser.check_forbidden_globals f = .ok errs ∧
        l.count (path, n + 1, mkErrMsg f g) = errs.count (n + 1, mkErrMsg f g) := by
  intro fs
  induction fs with
  | nil =>
    intro l h _ _ hf
    simp at hf
  | cons f2 rest ih =>
    intro l h hnd hall hf
    rw [checkAllFuncs] at h
    split at h
    · exact Except.noConfusion h
    · next d1 heq =>
      split at h
      · exact Except.noConfusion h
      · next d2 heq2 =>
        injection h with h
        by_cases hff : f = f2
        · subst hff
          obtain ⟨errs, hok1, hcnt1⟩ := checkFilesFor_count f path parser
            (n + 1) (mkErrMsg f g) parsers d1 heq hpn hpv
          refine ⟨errs, hok1, ?_⟩
          rw [← h, List.count_append, hcnt1]
          have h2 : d2.count (path, n + 1, mkErrMsg f g) = 0 :=
            checkAllFuncs_count_zero parsers f g path n hqf hg rest d2 heq2
              (fun x hx => hall x (List.mem_cons_of_mem _ hx))
              (List.nodup_cons.mp hnd).1
          rw [h2]
          omega
        · have hfr : f ∈ rest := by
            rcases List.mem_cons.mp hf with he | hm
            · exact absurd he hff
            · exact hm
          obtain ⟨errs, hok1, hcnt1⟩ := ih d2 heq2 (List.nodup_cons.mp hnd).2
            (fun x hx => hall x (List.mem_cons_of_mem _ hx)) hfr
          refine ⟨errs, hok1, ?_⟩
          rw [← h, List.count_append, hcnt1]
          have h1 : d1.count (path, n + 1, mkErrMsg f g) = 0 := by
            rw [List.count_eq_zero]
            intro hmem
            obtain ⟨g2, hg2mem, hg2msg⟩ := checkFilesFor_msg f2 parsers d1 heq _ hmem
            simp only at hg2msg
            have hqf2 : quoteFree f2 = true := hall f2 (List.mem_cons_self _ _)
            have hqg : quoteFree g = true := by
              simp only [forbiddenGlobals, List.mem_cons, List.not_mem_nil, or_false] at hg
              rcases hg with rfl | rfl <;> decide
            have hqg2 : quoteFree g2 = true := by
              simp only [forbiddenGlobals, List.mem_cons, List.not_mem_nil, or_false] at hg2mem
              rcases hg2mem with rfl | rfl <;> decide
            exact hff (mkErrMsg_inj f f2 g g2 hqf hqf2 hqg hqg2 hg2msg).1
          rw [h1, Nat.zero_add]

/-- C1 (amended): diagnostics are counted per reachable function and file.
For every corpus, seed list of quote-free names, reachable name `f`,
forbidden root `g`, file path with its parser, and line index `n`: the
number of diagnostics `(path, n+1, message of f and g)` in the output of the
checking phase equals `perLineCount` — one diagnostic per match of `g.` at
a non-string position of line `n`, provided the line lies in the located
body span of `f` in that file, is no comment line, and is not suppressed by
the nested-handler state; zero otherwise. A single textual access can
therefore be reported once per reachable function whose located span covers
it (`c1_counterexample` shows two reports of one access), rather than
exactly once overall as originally claimed. -/
theorem c1_per_function_reporting
    (files : List LuaFile) (seeds visited : List String) (out : List Diag)
    (f g path : String) (parser : LuaParser) (n : Nat)
    (htr : trace_call_chain seeds files = some visited)
    (hseeds : ∀ x ∈ seeds, quoteFree x = true)
    (hok : checkAllFuncs (buildParsers files) visited = .ok out)
    (hf : f ∈ visited) (hg : g ∈ forbiddenGlobals)
    (hpv : findVal (buildParsers files) path = some parser) :
    ∃ errs, parser.check_forbidden_globals f = .ok errs ∧
      out.count (path, n + 1, mkErrMsg f g) = perLineCount parser f g n := by
  have htr2 : traceAuxF (buildAllFunctions files) (buildParsers files)
      (traceFuel (buildAllFunctions files) (buildParsers files) seeds) [] seeds =
      some visited := htr
  have hnd := (traceAuxF_invariant (buildAllFunctions files) (buildParsers files)
    _ _ _ _ htr2 List.nodup_nil (by simp)).1
  have hvqf := traceAuxF_quoteFree (buildAllFunctions files) (buildParsers files)
    _ _ _ _ htr2 (by simp) hseeds
  have hqf : quoteFree f = true := hvqf f hf
  obtain ⟨errs, hokerrs, hcnt⟩ := checkAllFuncs_count (buildParsers files) path parser f g n
    (buildParsers_keysNodup files) hpv hg hqf visited out hok hnd hvqf hf
  exact ⟨errs, hokerrs, by
    rw [hcnt, check_forbidden_globals_count parser f g n errs hokerrs hqf hg]⟩

/-- C1 witness: concrete instantiation on `corpusOverlap` for the reachable
name `f`, root `game`, file `a.lua` and line index 2. -/
theorem c1_witness :
    ∃ errs, (LuaParser.mk "function f()\n  g = function()\n    game.x()\n  end\nend".data).check_forbidden_globals "f" = .ok errs ∧
      ([("a.lua", 3, mkErrMsg "f" "game"), ("a.lua", 3, mkErrMsg "g" "game")] : List Diag).count
          ("a.lua", 2 + 1, mkErrMsg "f" "game") =
        perLineCount (LuaParser.mk "function f()\n  g = function()\n    game.x()\n  end\nend".data)
          "f" "game" 2 :=
  c1_per_function_reporting corpusOverlap ["f", "g"] ["f", "g"]
    [("a.lua", 3, mkErrMsg "f" "game"), ("a.lua", 3, mkErrMsg "g" "game")]
    "f" "game" "a.lua"
    (LuaParser.mk "function f()\n  g = function()\n    game.x()\n  end\nend".data) 2
    rfl (by decide) rfl (by decide) (by decide) rfl

end OnLoad
